import Mathlib

/-!
Verification development for the lookup-tree compiler of the
extraterm-font-ligatures package (`src/processors/helper.ts`).

The TypeScript code is shallowly embedded: JavaScript objects that form the
mutable lookup tree are represented by an arena (a `List LookupTreeEntry`
addressed by index), object identity becomes arena-index identity, fresh
object allocation becomes appending to the arena, and JavaScript `Map`
objects (insertion ordered, unique keys, `set` overwriting in place) become
insertion-ordered association lists.  Code that can throw (out-of-range
lookup indexing) is embedded in `Except Fault`.
-/

namespace ExtratermLigatures

/-- A glyph specification for one rule position: either a single glyph ID or
a closed glyph-ID range `[low, high]` (TS `number | [number, number]`). -/
inductive GlyphSpec where
  | single (glyph : Nat)
  | range (low high : Nat)
deriving DecidableEq, Repr

/-- Modelled from the spec: the single-substitution subtable of
`processors/substitution.ts` and `tables.ts` is not part of this source
tree.  Per the spec's external-interface section, such a subtable exposes a
query operation mapping an input glyph to an output glyph or null, and a
query mapping a glyph range to a finer-grained partial mapping from
sub-range-or-individual-glyph to output (possibly null).  The subtable is
abstracted by exactly those two query functions. -/
structure SubstitutionTable where
  indiv : Nat → Option Nat
  rangeMap : Nat × Nat → List (GlyphSpec × Option Nat)

/-- A lookup; the only variant consumed by the code under verification is
the single-substitution kind (`Lookup.Type1`), which carries a list of
subtables. -/
structure Lookup where
  subtables : List SubstitutionTable

/-- TS `SubstitutionLookupRecord`: names which lookup applies at which
sequence index of a rule. -/
structure SubstitutionLookupRecord where
  sequenceIndex : Nat
  lookupListIndex : Nat
deriving DecidableEq, Repr

/-- The fault class produced by indexing `lookups` out of range (in JS,
`lookups[i]` yields `undefined` and the subsequent property access throws). -/
inductive Fault where
  | indexOutOfBounds
deriving DecidableEq, Repr

/-- Modelled from the spec: wrapper for the absent
`getIndividualSubstitutionGlyph` of `processors/substitution.ts`. -/
def getIndividualSubstitutionGlyph (t : SubstitutionTable) (glyphId : Nat) : Option Nat :=
  t.indiv glyphId

/-- Modelled from the spec: wrapper for the absent
`getRangeSubstitutionGlyphs` of `processors/substitution.ts`. -/
def getRangeSubstitutionGlyphs (t : SubstitutionTable) (r : Nat × Nat) :
    List (GlyphSpec × Option Nat) :=
  t.rangeMap r

/-- `substitutions.filter(s => s.sequenceIndex === index)`. -/
def applicableRecords (substitutions : List SubstitutionLookupRecord) (index : Nat) :
    List SubstitutionLookupRecord :=
  substitutions.filter (fun s => s.sequenceIndex == index)

/-- Inner loop of `getSubstitutionAtPosition`: scan one lookup's subtables in
order, returning the first non-null substitution. -/
def scanSubtables (glyphId : Nat) : List SubstitutionTable → Option Nat
  | [] => none
  | t :: rest =>
    match getIndividualSubstitutionGlyph t glyphId with
    | some sub => some sub
    | none => scanSubtables glyphId rest

/-- Outer loop of `getSubstitutionAtPosition` over the already-filtered
records; `lookups[s.lookupListIndex]` out of range faults. -/
def scanRecords (lookups : List Lookup) (glyphId : Nat) :
    List SubstitutionLookupRecord → Except Fault (Option Nat)
  | [] => .ok none
  | s :: rest =>
    match lookups[s.lookupListIndex]? with
    | none => .error .indexOutOfBounds
    | some lk =>
      match scanSubtables glyphId lk.subtables with
      | some sub => .ok (some sub)
      | none => scanRecords lookups glyphId rest

/-- TS `getSubstitutionAtPosition` (helper.ts lines 181-196). -/
def getSubstitutionAtPosition (substitutions : List SubstitutionLookupRecord)
    (lookups : List Lookup) (index : Nat) (glyphId : Nat) : Except Fault (Option Nat) :=
  scanRecords lookups glyphId (applicableRecords substitutions index)

/-- `Array.from(sub.values()).every(val => val !== null)`. -/
def allNonNull (sub : List (GlyphSpec × Option Nat)) : Bool :=
  (sub.map Prod.snd).all Option.isSome

/-- Inner loop of `getSubstitutionAtPositionRange`: returns the first
subtable query result that is NOT fully non-null (the source's
`if (!Array.from(sub.values()).every(val => val !== null)) return sub`). -/
def scanSubtablesRange (r : Nat × Nat) : List SubstitutionTable → Option (List (GlyphSpec × Option Nat))
  | [] => none
  | t :: rest =>
    let sub := getRangeSubstitutionGlyphs t r
    if !(allNonNull sub) then some sub else scanSubtablesRange r rest

/-- Outer loop of `getSubstitutionAtPositionRange` over the already-filtered
records; falls through to the single pair (whole range, null). -/
def scanRecordsRange (lookups : List Lookup) (r : Nat × Nat) :
    List SubstitutionLookupRecord → Except Fault (List (GlyphSpec × Option Nat))
  | [] => .ok [(GlyphSpec.range r.1 r.2, none)]
  | s :: rest =>
    match lookups[s.lookupListIndex]? with
    | none => .error .indexOutOfBounds
    | some lk =>
      match scanSubtablesRange r lk.subtables with
      | some sub => .ok sub
      | none => scanRecordsRange lookups r rest

/-- TS `getSubstitutionAtPositionRange` (helper.ts lines 164-179). -/
def getSubstitutionAtPositionRange (substitutions : List SubstitutionLookupRecord)
    (lookups : List Lookup) (index : Nat) (r : Nat × Nat) :
    Except Fault (List (GlyphSpec × Option Nat)) :=
  scanRecordsRange lookups r (applicableRecords substitutions index)

/-- A branch-point (TS `LookupTree`): a dispatch table with an
insertion-ordered individual map (glyph ID to child arena index) and an
ordered range list. -/
structure BranchPoint where
  individual : List (Nat × Nat) := []
  range : List ((Nat × Nat) × Nat) := []
deriving DecidableEq, Repr

/-- TS `LookupTreeEntry`: a tree node with optional forward and reverse
branch-points. -/
structure LookupTreeEntry where
  forward : Option BranchPoint := none
  reverse : Option BranchPoint := none
deriving DecidableEq, Repr

def emptyBP : BranchPoint := {}

def emptyEntry : LookupTreeEntry := {}

/-- TS `EntryMeta`: a tree entry (arena index) paired with the accumulated
substitution sequence. -/
structure EntryMeta where
  entry : Nat
  substitutions : List (Option Nat)
deriving DecidableEq, Repr

/-- The arena of tree nodes; a JS object identity is an index into it. -/
abbrev Arena := List LookupTreeEntry

/-- Read a node from the arena (an invalid index yields the empty node; the
claims under verification always index allocated nodes). -/
def getNode (st : Arena) (i : Nat) : LookupTreeEntry :=
  st.getD i emptyEntry

/-- JS `Map.set` on an insertion-ordered association list: an existing key
keeps its position and gets the new value, a new key is appended. -/
def mapSet (m : List (Nat × Nat)) (k v : Nat) : List (Nat × Nat) :=
  if m.any (fun p => p.1 == k) then m.map (fun p => if p.1 == k then (k, v) else p)
  else m ++ [(k, v)]

/-- JS `Map.get`. -/
def mapGet (m : List (Nat × Nat)) (k : Nat) : Option Nat :=
  (m.find? (fun p => p.1 == k)).map Prod.snd

/-- Main loop of `dedupGlyphs`, carrying the `singleGlyphs` and `pairGlyphs`
seen-sets (the source's `Set` iteration for pairs is an existence check on
component-wise equality). -/
def dedupGo : List GlyphSpec → List Nat → List (Nat × Nat) → List GlyphSpec
  | [], _, _ => []
  | GlyphSpec.range lo hi :: rest, singles, pairs =>
    if pairs.any (fun p => p.1 == lo && p.2 == hi) then
      dedupGo rest singles pairs
    else
      GlyphSpec.range lo hi :: dedupGo rest singles (pairs ++ [(lo, hi)])
  | GlyphSpec.single g :: rest, singles, pairs =>
    if singles.any (fun s => s == g) then
      dedupGo rest singles pairs
    else
      GlyphSpec.single g :: dedupGo rest (singles ++ [g]) pairs

/-- TS `dedupGlyphs` (helper.ts lines 107-138). -/
def dedupGlyphs (glyphs : List GlyphSpec) : List GlyphSpec :=
  if glyphs.length < 2 then glyphs else dedupGo glyphs [] []

/-- Reference function: keep the first occurrence of each element, given the
set of elements already seen. -/
def firstOccAux : List GlyphSpec → List GlyphSpec → List GlyphSpec
  | [], _ => []
  | x :: xs, seen =>
    if x ∈ seen then firstOccAux xs seen else x :: firstOccAux xs (seen ++ [x])

/-- The loop body of `getInputTree` for a range candidate (helper.ts lines
149-158): for each pair of the resolved sub-mapping, allocate the `entry`
object, then link a range key into the range list, while an individual key
gets a second, separately allocated empty node in the individual map; the
result always carries the first allocation.  `n` is the next fresh arena
index; the returned node list holds the allocations in order. -/
def inputRangeLoop (tree : BranchPoint) (n : Nat) :
    List (GlyphSpec × Option Nat) → BranchPoint × List LookupTreeEntry × List (Nat × Option Nat)
  | [] => (tree, [], [])
  | (GlyphSpec.range lo hi, substitution) :: rest =>
    let tree' := { tree with range := tree.range ++ [((lo, hi), n)] }
    let (t, fresh, res) := inputRangeLoop tree' (n + 1) rest
    (t, emptyEntry :: fresh, (n, substitution) :: res)
  | (GlyphSpec.single g, substitution) :: rest =>
    let tree' := { tree with individual := mapSet tree.individual g (n + 1) }
    let (t, fresh, res) := inputRangeLoop tree' (n + 2) rest
    (t, emptyEntry :: emptyEntry :: fresh, (n, substitution) :: res)

/-- TS `getInputTree` (helper.ts lines 140-162).  For a single glyph the
source stores a fresh empty entry with `Map.set` and reads it back with
`Map.get`; in the arena embedding the fresh entry's index `n` is used for
both the stored and the returned entry. -/
def getInputTree (tree : BranchPoint) (n : Nat) (substitutions : List SubstitutionLookupRecord)
    (lookups : List Lookup) (inputIndex : Nat) (glyphId : GlyphSpec) :
    Except Fault (BranchPoint × List LookupTreeEntry × List (Nat × Option Nat)) :=
  match glyphId with
  | GlyphSpec.single g => do
    let substitution ← getSubstitutionAtPosition substitutions lookups inputIndex g
    .ok ({ tree with individual := mapSet tree.individual g n }, [emptyEntry], [(n, substitution)])
  | GlyphSpec.range lo hi => do
    let subs ← getSubstitutionAtPositionRange substitutions lookups inputIndex (lo, hi)
    .ok (inputRangeLoop tree n subs)

/-- The glyph loop of `processInputPosition` for one current entry, threading
the forward branch-point being built and the fresh-allocation counter. -/
def inputGlyphFold (substitutions : List SubstitutionLookupRecord) (lookups : List Lookup)
    (position : Nat) (tree : BranchPoint) (n : Nat) :
    List GlyphSpec → Except Fault (BranchPoint × List LookupTreeEntry × List (Nat × Option Nat))
  | [] => .ok (tree, [], [])
  | g :: gs => do
    let (tree', fresh, res) ← getInputTree tree n substitutions lookups position g
    let (tree'', fresh', res') ←
      inputGlyphFold substitutions lookups position tree' (n + fresh.length) gs
    .ok (tree'', fresh ++ fresh', res ++ res')

/-- The body of `processInputPosition`'s entry loop (helper.ts lines 19-35):
the entry's forward branch-point starts from empty unconditionally, the
deduplicated candidates are folded through `getInputTree`, and the built
branch-point is stored on the node; each produced meta extends the current
substitution sequence by the resolved substitution. -/
def processInputEntry (st : Arena) (meta : EntryMeta) (glyphs : List GlyphSpec) (position : Nat)
    (lookupRecords : List SubstitutionLookupRecord) (lookups : List Lookup) :
    Except Fault (Arena × List EntryMeta) := do
  let (bp, fresh, res) ←
    inputGlyphFold lookupRecords lookups position emptyBP st.length (dedupGlyphs glyphs)
  .ok ((st ++ fresh).set meta.entry { getNode st meta.entry with forward := some bp },
       res.map (fun p => ⟨p.1, meta.substitutions ++ [p.2]⟩))

/-- TS `processInputPosition` (helper.ts lines 11-39). -/
def processInputPosition (glyphs : List GlyphSpec) (position : Nat)
    (currentEntries : List EntryMeta) (lookupRecords : List SubstitutionLookupRecord)
    (lookups : List Lookup) (st : Arena) : Except Fault (Arena × List EntryMeta) :=
  match currentEntries with
  | [] => .ok (st, [])
  | m :: ms => do
    let (st', res) ← processInputEntry st m glyphs position lookupRecords lookups
    let (st'', res') ← processInputPosition glyphs position ms lookupRecords lookups st'
    .ok (st'', res ++ res')

/-- The shared glyph loop of `processLookaheadPosition` and
`processBacktrackPosition` (their bodies are textually identical except for
the branch-point field): each deduplicated candidate allocates one fresh
empty leaf, pushes a meta with the unchanged substitution list, and inserts
the leaf by individual ID or appends it by range. -/
def contextGlyphFold (bp : BranchPoint) (n : Nat) (substitutions : List (Option Nat)) :
    List GlyphSpec → BranchPoint × List LookupTreeEntry × List EntryMeta
  | [] => (bp, [], [])
  | g :: gs =>
    let bp' := match g with
      | GlyphSpec.single k => { bp with individual := mapSet bp.individual k n }
      | GlyphSpec.range lo hi => { bp with range := bp.range ++ [((lo, hi), n)] }
    let (b, fresh, metas) := contextGlyphFold bp' (n + 1) substitutions gs
    (b, emptyEntry :: fresh, ⟨n, substitutions⟩ :: metas)

/-- The body of `processBacktrackPosition`'s entry loop (helper.ts lines
80-103): the reverse branch-point is created empty only when absent, then
extended; with no candidates nothing is touched. -/
def processBacktrackEntry (st : Arena) (meta : EntryMeta) (glyphs : List GlyphSpec) :
    Arena × List EntryMeta :=
  let ds := dedupGlyphs glyphs
  if ds = [] then (st, [])
  else
    let node := getNode st meta.entry
    let (bp, fresh, metas) := contextGlyphFold (node.reverse.getD emptyBP) st.length
      meta.substitutions ds
    ((st ++ fresh).set meta.entry { node with reverse := some bp }, metas)

/-- TS `processBacktrackPosition` (helper.ts lines 74-105). -/
def processBacktrackPosition (glyphs : List GlyphSpec) (currentEntries : List EntryMeta)
    (st : Arena) : Arena × List EntryMeta :=
  match currentEntries with
  | [] => (st, [])
  | m :: ms =>
    let (st', res) := processBacktrackEntry st m glyphs
    let (st'', res') := processBacktrackPosition glyphs ms st'
    (st'', res ++ res')

/-- The body of `processLookaheadPosition`'s entry loop (helper.ts lines
46-68): identical to the backtrack body but on the forward branch-point. -/
def processLookaheadEntry (st : Arena) (meta : EntryMeta) (glyphs : List GlyphSpec) :
    Arena × List EntryMeta :=
  let ds := dedupGlyphs glyphs
  if ds = [] then (st, [])
  else
    let node := getNode st meta.entry
    let (bp, fresh, metas) := contextGlyphFold (node.forward.getD emptyBP) st.length
      meta.substitutions ds
    ((st ++ fresh).set meta.entry { node with forward := some bp }, metas)

/-- TS `processLookaheadPosition` (helper.ts lines 41-72). -/
def processLookaheadPosition (glyphs : List GlyphSpec) (currentEntries : List EntryMeta)
    (st : Arena) : Arena × List EntryMeta :=
  match currentEntries with
  | [] => (st, [])
  | m :: ms =>
    let (st', res) := processLookaheadEntry st m glyphs
    let (st'', res') := processLookaheadPosition glyphs ms st'
    (st'', res ++ res')

/-- Swap the two branch-point fields of a node; `processLookaheadPosition`
is `processBacktrackPosition` conjugated by this involution. -/
def flipEntry (e : LookupTreeEntry) : LookupTreeEntry :=
  ⟨e.reverse, e.forward⟩

/-- How many arena nodes one resolved sub-mapping pair allocates inside
`getInputTree`'s range loop: a single-glyph key allocates the result entry
plus the separately stored map child, a range key allocates one node. -/
def allocWidth : GlyphSpec × Option Nat → Nat
  | (GlyphSpec.single _, _) => 2
  | (GlyphSpec.range _ _, _) => 1

/-- Total number of arena nodes allocated by the first `i` pairs of a
resolved sub-mapping. -/
def widthSum : List (GlyphSpec × Option Nat) → Nat → Nat
  | _, 0 => 0
  | [], _ + 1 => 0
  | p :: rest, i + 1 => allocWidth p + widthSum rest i

/-- Concrete subtable whose range query substitutes every glyph. -/
def tblFull : SubstitutionTable :=
  ⟨fun g => some (g + 1), fun r => [(GlyphSpec.range r.1 r.2, some 99)]⟩

/-- Concrete subtable whose range query yields a partial split with an
individual-glyph key. -/
def tblSplit : SubstitutionTable :=
  ⟨fun _ => none, fun _ => [(GlyphSpec.single 12, some 50), (GlyphSpec.range 13 20, none)]⟩

/-- Concrete subtable substituting only glyph 65. -/
def tbl65 (out : Nat) : SubstitutionTable :=
  ⟨fun g => if g = 65 then some out else none, fun _ => []⟩

/-- The sub-mapping produced by `tblSplit`'s range query. -/
def subsSplit : List (GlyphSpec × Option Nat) :=
  [(GlyphSpec.single 12, some 50), (GlyphSpec.range 13 20, none)]

/-- Node `b` is node `a` after at least one backtrack step over the
deduplicated candidates `ds` with all fresh allocations at index `L` or
later: the reverse branch-point exists, its range list extends the old one,
its individual map agrees with the old one away from the step's single-glyph
candidates, and every single-glyph candidate maps to a fresh child. -/
def RevExtended (L : Nat) (ds : List GlyphSpec) (a b : LookupTreeEntry) : Prop :=
  ∃ bp2, b.reverse = some bp2 ∧
    (∃ tail, bp2.range = (a.reverse.getD emptyBP).range ++ tail) ∧
    (∀ k, GlyphSpec.single k ∉ ds →
      mapGet bp2.individual k = mapGet (a.reverse.getD emptyBP).individual k) ∧
    (∀ k, GlyphSpec.single k ∈ ds →
      ∃ c, mapGet bp2.individual k = some c ∧ L ≤ c)

/-- Node `b` is node `a` after zero or more backtrack steps: the forward
branch-point is untouched and the node is unchanged or reverse-extended. -/
def RevEvolves (L : Nat) (ds : List GlyphSpec) (a b : LookupTreeEntry) : Prop :=
  b.forward = a.forward ∧ (b = a ∨ RevExtended L ds a b)

/-- Mirror of `RevExtended` for lookahead steps (forward branch-point). -/
def FwdExtended (L : Nat) (ds : List GlyphSpec) (a b : LookupTreeEntry) : Prop :=
  ∃ bp2, b.forward = some bp2 ∧
    (∃ tail, bp2.range = (a.forward.getD emptyBP).range ++ tail) ∧
    (∀ k, GlyphSpec.single k ∉ ds →
      mapGet bp2.individual k = mapGet (a.forward.getD emptyBP).individual k) ∧
    (∀ k, GlyphSpec.single k ∈ ds →
      ∃ c, mapGet bp2.individual k = some c ∧ L ≤ c)

/-- Mirror of `RevEvolves` for lookahead steps. -/
def FwdEvolves (L : Nat) (ds : List GlyphSpec) (a b : LookupTreeEntry) : Prop :=
  b.reverse = a.reverse ∧ (b = a ∨ FwdExtended L ds a b)

/-! ### Lemmas about the glyph-set deduplicator -/

lemma pairs_any_iff (pairs : List (Nat × Nat)) (lo hi : Nat) :
    pairs.any (fun p => p.1 == lo && p.2 == hi) = true ↔ (lo, hi) ∈ pairs := by
  simp only [List.any_eq_true, Bool.and_eq_true, beq_iff_eq]
  constructor
  · rintro ⟨⟨a, b⟩, hmem, h1, h2⟩
    cases h1; cases h2; exact hmem
  · intro h
    exact ⟨(lo, hi), h, rfl, rfl⟩

lemma singles_any_iff (singles : List Nat) (g : Nat) :
    singles.any (fun s => s == g) = true ↔ g ∈ singles := by
  simp [List.any_eq_true]

lemma dedupGo_eq_firstOccAux (gs : List GlyphSpec) :
    ∀ (singles : List Nat) (pairs : List (Nat × Nat)) (seen : List GlyphSpec),
    (∀ g, g ∈ singles ↔ GlyphSpec.single g ∈ seen) →
    (∀ lo hi, (lo, hi) ∈ pairs ↔ GlyphSpec.range lo hi ∈ seen) →
    dedupGo gs singles pairs = firstOccAux gs seen := by
  induction gs with
  | nil => intro _ _ _ _ _; rfl
  | cons x rest ih =>
    intro singles pairs seen hs hp
    cases x with
    | single g =>
      simp only [dedupGo, firstOccAux]
      by_cases hmem : GlyphSpec.single g ∈ seen
      · rw [if_pos ((singles_any_iff singles g).mpr ((hs g).mpr hmem)), if_pos hmem]
        exact ih singles pairs seen hs hp
      · rw [if_neg (fun h => hmem ((hs g).mp ((singles_any_iff singles g).mp h))),
          if_neg hmem]
        congr 1
        refine ih (singles ++ [g]) pairs (seen ++ [GlyphSpec.single g]) ?_ ?_
        · intro g'
          simp only [List.mem_append, List.mem_singleton, hs g']
          constructor
          · rintro (h | h)
            · exact .inl h
            · exact .inr (by rw [h])
          · rintro (h | h)
            · exact .inl h
            · exact .inr (by injection h)
        · intro lo hi
          simp only [List.mem_append, List.mem_singleton, hp lo hi]
          constructor
          · exact fun h => .inl h
          · rintro (h | h)
            · exact h
            · exact absurd h (by simp)
    | range lo hi =>
      simp only [dedupGo, firstOccAux]
      by_cases hmem : GlyphSpec.range lo hi ∈ seen
      · rw [if_pos ((pairs_any_iff pairs lo hi).mpr ((hp lo hi).mpr hmem)), if_pos hmem]
        exact ih singles pairs seen hs hp
      · rw [if_neg (fun h => hmem ((hp lo hi).mp ((pairs_any_iff pairs lo hi).mp h))),
          if_neg hmem]
        congr 1
        refine ih singles (pairs ++ [(lo, hi)]) (seen ++ [GlyphSpec.range lo hi]) ?_ ?_
        · intro g'
          simp only [List.mem_append, List.mem_singleton, hs g']
          constructor
          · exact fun h => .inl h
          · rintro (h | h)
            · exact h
            · exact absurd h (by simp)
        · intro lo' hi'
          simp only [List.mem_append, List.mem_singleton, hp lo' hi']
          constructor
          · rintro (h | h)
            · exact .inl h
            · refine .inr ?_
              simp only [Prod.mk.injEq] at h
              rw [h.1, h.2]
          · rintro (h | h)
            · exact .inl h
            · exact .inr (by injection h with h1 h2; rw [h1, h2])

lemma dedupGlyphs_eq_firstOccAux (gs : List GlyphSpec) :
    dedupGlyphs gs = firstOccAux gs [] := by
  unfold dedupGlyphs
  by_cases h : gs.length < 2
  · rw [if_pos h]
    cases gs with
    | nil => rfl
    | cons x xs =>
      cases xs with
      | nil => simp [firstOccAux]
      | cons y ys => simp only [List.length_cons] at h; omega
  · rw [if_neg h]
    exact dedupGo_eq_firstOccAux gs [] [] [] (by simp) (by simp)

lemma mem_firstOccAux (gs : List GlyphSpec) :
    ∀ (seen : List GlyphSpec) (a : GlyphSpec),
    a ∈ firstOccAux gs seen ↔ a ∈ gs ∧ a ∉ seen := by
  induction gs with
  | nil => intro seen a; simp [firstOccAux]
  | cons x rest ih =>
    intro seen a
    simp only [firstOccAux]
    by_cases hx : x ∈ seen
    · rw [if_pos hx, ih seen a, List.mem_cons]
      constructor
      · exact fun ⟨h1, h2⟩ => ⟨Or.inr h1, h2⟩
      · rintro ⟨rfl | h1, h2⟩
        · exact absurd hx h2
        · exact ⟨h1, h2⟩
    · rw [if_neg hx]
      simp only [List.mem_cons, ih (seen ++ [x]) a, List.mem_append, List.mem_singleton]
      constructor
      · rintro (rfl | ⟨h1, h2⟩)
        · exact ⟨Or.inl rfl, hx⟩
        · exact ⟨Or.inr h1, fun hc => h2 (Or.inl hc)⟩
      · rintro ⟨rfl | h1, h2⟩
        · exact Or.inl rfl
        · by_cases hax : a = x
          · exact Or.inl hax
          · refine Or.inr ⟨h1, ?_⟩
            rintro (hc | hc | hc)
            · exact h2 hc
            · exact hax hc
            · cases hc

lemma nodup_firstOccAux (gs : List GlyphSpec) :
    ∀ seen : List GlyphSpec, (firstOccAux gs seen).Nodup := by
  induction gs with
  | nil => intro seen; simp [firstOccAux]
  | cons x rest ih =>
    intro seen
    simp only [firstOccAux]
    by_cases hx : x ∈ seen
    · rw [if_pos hx]; exact ih seen
    · rw [if_neg hx]
      refine List.nodup_cons.mpr ⟨?_, ih (seen ++ [x])⟩
      intro hc
      exact ((mem_firstOccAux rest (seen ++ [x]) x).mp hc).2 (by simp)

lemma sublist_firstOccAux (gs : List GlyphSpec) :
    ∀ seen : List GlyphSpec, List.Sublist (firstOccAux gs seen) gs := by
  induction gs with
  | nil => intro _; simp [firstOccAux]
  | cons x rest ih =>
    intro seen
    simp only [firstOccAux]
    by_cases hx : x ∈ seen
    · rw [if_pos hx]; exact (ih seen).cons x
    · rw [if_neg hx]; exact (ih (seen ++ [x])).cons₂ x

lemma firstOccAux_of_nodup (gs : List GlyphSpec) :
    ∀ seen : List GlyphSpec, gs.Nodup → (∀ a ∈ gs, a ∉ seen) →
    firstOccAux gs seen = gs := by
  induction gs with
  | nil => intro _ _ _; rfl
  | cons x rest ih =>
    intro seen hnd hdis
    simp only [firstOccAux]
    rw [if_neg (hdis x (List.mem_cons_self x rest))]
    congr 1
    refine ih (seen ++ [x]) (List.nodup_cons.mp hnd).2 ?_
    intro a ha
    simp only [List.mem_append, List.mem_singleton]
    rintro (hc | rfl)
    · exact hdis a (List.mem_cons_of_mem x ha) hc
    · exact (List.nodup_cons.mp hnd).1 ha

lemma dedupGlyphs_nodup (gs : List GlyphSpec) : (dedupGlyphs gs).Nodup := by
  rw [dedupGlyphs_eq_firstOccAux]
  exact nodup_firstOccAux gs []

/-- C4: for every list of glyph specs, `dedupGlyphs` returns the list of
first occurrences (each distinct value at most once, first-occurrence order
preserved, same set of values, output a sublist of the input), and every
input of length 0 or 1 is returned unchanged. -/
theorem C4_dedupGlyphs_contract (xs : List GlyphSpec) :
    dedupGlyphs xs = firstOccAux xs [] ∧
    (dedupGlyphs xs).Nodup ∧
    (∀ a, a ∈ dedupGlyphs xs ↔ a ∈ xs) ∧
    List.Sublist (dedupGlyphs xs) xs ∧
    (xs.length ≤ 1 → dedupGlyphs xs = xs) := by
  refine ⟨dedupGlyphs_eq_firstOccAux xs, ?_, ?_, ?_, ?_⟩
  · rw [dedupGlyphs_eq_firstOccAux]; exact nodup_firstOccAux xs []
  · intro a
    rw [dedupGlyphs_eq_firstOccAux, mem_firstOccAux]
    simp
  · rw [dedupGlyphs_eq_firstOccAux]; exact sublist_firstOccAux xs []
  · intro h
    unfold dedupGlyphs
    rw [if_pos (by omega)]

/-- C4 witness: the contract evaluated at concrete inputs. -/
theorem C4_dedupGlyphs_contract_witness :
    (dedupGlyphs [GlyphSpec.single 1, GlyphSpec.range 2 3, GlyphSpec.single 1]).Nodup ∧
    dedupGlyphs [GlyphSpec.single 7] = [GlyphSpec.single 7] :=
  ⟨(C4_dedupGlyphs_contract [GlyphSpec.single 1, GlyphSpec.range 2 3, GlyphSpec.single 1]).2.1,
   (C4_dedupGlyphs_contract [GlyphSpec.single 7]).2.2.2.2 (by decide)⟩

/-- C10: deduplication is idempotent, and a list already containing no two
equal elements is returned unchanged. -/
theorem C10_dedupGlyphs_idem (xs : List GlyphSpec) :
    dedupGlyphs (dedupGlyphs xs) = dedupGlyphs xs ∧
    (xs.Nodup → dedupGlyphs xs = xs) := by
  have key : ∀ ys : List GlyphSpec, ys.Nodup → dedupGlyphs ys = ys := by
    intro ys hnd
    rw [dedupGlyphs_eq_firstOccAux]
    exact firstOccAux_of_nodup ys [] hnd (by simp)
  refine ⟨?_, key xs⟩
  refine key _ ?_
  rw [dedupGlyphs_eq_firstOccAux]
  exact nodup_firstOccAux xs []

/-- C10 witness: idempotence evaluated at a concrete input, with the
already-deduplicated case discharged at a concrete `Nodup` list. -/
theorem C10_dedupGlyphs_idem_witness :
    dedupGlyphs (dedupGlyphs [GlyphSpec.single 1, GlyphSpec.single 1, GlyphSpec.range 4 6]) =
      dedupGlyphs [GlyphSpec.single 1, GlyphSpec.single 1, GlyphSpec.range 4 6] ∧
    dedupGlyphs [GlyphSpec.single 1, GlyphSpec.range 4 6] =
      [GlyphSpec.single 1, GlyphSpec.range 4 6] :=
  ⟨(C10_dedupGlyphs_idem [GlyphSpec.single 1, GlyphSpec.single 1, GlyphSpec.range 4 6]).1,
   (C10_dedupGlyphs_idem [GlyphSpec.single 1, GlyphSpec.range 4 6]).2 (by decide)⟩

/-! ### Lemmas about the substitution resolver -/

lemma lookups_getElem?_eq (lookups : List Lookup) (i : Nat) (h : i < lookups.length) :
    lookups[i]? = some (lookups.getD i ⟨[]⟩) := by
  rw [List.getD_eq_getElem?_getD]
  cases h2 : lookups[i]? with
  | none => exact absurd (List.getElem?_eq_none_iff.mp h2) (by omega)
  | some v => rfl

lemma scanSubtables_eq (g : Nat) (ts : List SubstitutionTable) :
    scanSubtables g ts =
      (ts.map (fun t => getIndividualSubstitutionGlyph t g)).findSome? (fun x => x) := by
  induction ts with
  | nil => rfl
  | cons t rest ih =>
    simp only [scanSubtables, List.map_cons, List.findSome?_cons]
    cases getIndividualSubstitutionGlyph t g with
    | some s => rfl
    | none => exact ih

lemma scanRecords_eq (lookups : List Lookup) (g : Nat) (l : List SubstitutionLookupRecord)
    (hv : ∀ s ∈ l, s.lookupListIndex < lookups.length) :
    scanRecords lookups g l =
      .ok ((l.flatMap (fun s => (lookups.getD s.lookupListIndex ⟨[]⟩).subtables.map
        (fun t => getIndividualSubstitutionGlyph t g))).findSome? (fun x => x)) := by
  induction l with
  | nil => rfl
  | cons s rest ih =>
    have hs : s.lookupListIndex < lookups.length := hv s (List.mem_cons_self s rest)
    rw [List.flatMap_cons, List.findSome?_append]
    simp only [scanRecords, lookups_getElem?_eq lookups s.lookupListIndex hs]
    rw [← scanSubtables_eq g]
    cases h : scanSubtables g (lookups.getD s.lookupListIndex ⟨[]⟩).subtables with
    | some sub => rfl
    | none =>
      rw [Option.none_or]
      exact ih (fun x hx => hv x (List.mem_cons_of_mem s hx))

lemma scanRecords_error (lookups : List Lookup) (g : Nat) (pre : List SubstitutionLookupRecord)
    (bad : SubstitutionLookupRecord) (rest : List SubstitutionLookupRecord)
    (hvpre : ∀ s ∈ pre, s.lookupListIndex < lookups.length)
    (hnone : (pre.flatMap (fun s => (lookups.getD s.lookupListIndex ⟨[]⟩).subtables.map
      (fun t => getIndividualSubstitutionGlyph t g))).findSome? (fun x => x) = none)
    (hbad : lookups.length ≤ bad.lookupListIndex) :
    scanRecords lookups g (pre ++ bad :: rest) = .error .indexOutOfBounds := by
  induction pre with
  | nil =>
    have h0 : lookups[bad.lookupListIndex]? = none := List.getElem?_eq_none_iff.mpr hbad
    simp only [List.nil_append, scanRecords, h0]
  | cons s pre' ih =>
    have hs : s.lookupListIndex < lookups.length := hvpre s (List.mem_cons_self s pre')
    rw [List.flatMap_cons, List.findSome?_append] at hnone
    simp only [List.cons_append, scanRecords, lookups_getElem?_eq lookups s.lookupListIndex hs]
    cases h : scanSubtables g (lookups.getD s.lookupListIndex ⟨[]⟩).subtables with
    | some sub =>
      rw [← scanSubtables_eq g, h] at hnone
      simp [Option.or] at hnone
    | none =>
      refine ih (fun x hx => hvpre x (List.mem_cons_of_mem s hx)) ?_
      rw [← scanSubtables_eq g, h, Option.none_or] at hnone
      exact hnone

lemma scanSubtablesRange_eq (r : Nat × Nat) (ts : List SubstitutionTable) :
    scanSubtablesRange r ts =
      (ts.map (fun t => getRangeSubstitutionGlyphs t r)).find?
        (fun sub => !(allNonNull sub)) := by
  induction ts with
  | nil => rfl
  | cons t rest ih =>
    simp only [scanSubtablesRange, List.map_cons]
    cases h : allNonNull (getRangeSubstitutionGlyphs t r) with
    | true =>
      rw [List.find?_cons_of_neg _ (by simp [h])]
      simpa [h] using ih
    | false =>
      rw [List.find?_cons_of_pos _ (by simp [h])]
      simp [h]

lemma scanRecordsRange_eq (lookups : List Lookup) (r : Nat × Nat)
    (l : List SubstitutionLookupRecord)
    (hv : ∀ s ∈ l, s.lookupListIndex < lookups.length) :
    scanRecordsRange lookups r l =
      .ok (((l.flatMap (fun s => (lookups.getD s.lookupListIndex ⟨[]⟩).subtables.map
        (fun t => getRangeSubstitutionGlyphs t r))).find?
          (fun sub => !(allNonNull sub))).getD [(GlyphSpec.range r.1 r.2, none)]) := by
  induction l with
  | nil => rfl
  | cons s rest ih =>
    have hs : s.lookupListIndex < lookups.length := hv s (List.mem_cons_self s rest)
    rw [List.flatMap_cons, List.find?_append]
    simp only [scanRecordsRange, lookups_getElem?_eq lookups s.lookupListIndex hs]
    rw [← scanSubtablesRange_eq r]
    cases h : scanSubtablesRange r (lookups.getD s.lookupListIndex ⟨[]⟩).subtables with
    | some sub => rfl
    | none =>
      rw [Option.none_or]
      exact ih (fun x hx => hv x (List.mem_cons_of_mem s hx))

lemma scanRecordsRange_error (lookups : List Lookup) (r : Nat × Nat)
    (pre : List SubstitutionLookupRecord) (bad : SubstitutionLookupRecord)
    (rest : List SubstitutionLookupRecord)
    (hvpre : ∀ s ∈ pre, s.lookupListIndex < lookups.length)
    (hnone : (pre.flatMap (fun s => (lookups.getD s.lookupListIndex ⟨[]⟩).subtables.map
      (fun t => getRangeSubstitutionGlyphs t r))).find? (fun sub => !(allNonNull sub)) = none)
    (hbad : lookups.length ≤ bad.lookupListIndex) :
    scanRecordsRange lookups r (pre ++ bad :: rest) = .error .indexOutOfBounds := by
  induction pre with
  | nil =>
    have h0 : lookups[bad.lookupListIndex]? = none := List.getElem?_eq_none_iff.mpr hbad
    simp only [List.nil_append, scanRecordsRange, h0]
  | cons s pre' ih =>
    have hs : s.lookupListIndex < lookups.length := hvpre s (List.mem_cons_self s pre')
    rw [List.flatMap_cons, List.find?_append] at hnone
    simp only [List.cons_append, scanRecordsRange, lookups_getElem?_eq lookups s.lookupListIndex hs]
    cases h : scanSubtablesRange r (lookups.getD s.lookupListIndex ⟨[]⟩).subtables with
    | some sub =>
      rw [← scanSubtablesRange_eq r, h] at hnone
      simp [Option.or] at hnone
    | none =>
      refine ih (fun x hx => hvpre x (List.mem_cons_of_mem s hx)) ?_
      rw [← scanSubtablesRange_eq r, h, Option.none_or] at hnone
      exact hnone

lemma exceptFault_isOk_iff {α : Type} (x : Except Fault α) :
    x.isOk = true ↔ ¬ x = .error .indexOutOfBounds := by
  cases x with
  | ok a => simp [Except.isOk, Except.toBool]
  | error e => cases e; simp [Except.isOk, Except.toBool]

lemma scanRecords_error_iff (lookups : List Lookup) (g : Nat) :
    ∀ l : List SubstitutionLookupRecord,
    scanRecords lookups g l = .error .indexOutOfBounds ↔
      ∃ pre bad rest, l = pre ++ bad :: rest ∧
        (∀ s ∈ pre, s.lookupListIndex < lookups.length) ∧
        lookups.length ≤ bad.lookupListIndex ∧
        (pre.flatMap (fun s => (lookups.getD s.lookupListIndex ⟨[]⟩).subtables.map
          (fun t => getIndividualSubstitutionGlyph t g))).findSome? (fun x => x) = none := by
  intro l
  induction l with
  | nil =>
    constructor
    · intro h
      exact Except.noConfusion h
    · rintro ⟨pre, bad, rest, heq, -, -, -⟩
      cases pre <;> simp at heq
  | cons s rest2 ih =>
    cases hv : lookups[s.lookupListIndex]? with
    | none =>
      have hlen : lookups.length ≤ s.lookupListIndex := List.getElem?_eq_none_iff.mp hv
      constructor
      · intro _
        exact ⟨[], s, rest2, rfl, by simp, hlen, rfl⟩
      · intro _
        simp only [scanRecords, hv]
    | some lk =>
      have hslt : s.lookupListIndex < lookups.length := by
        by_contra hc
        rw [List.getElem?_eq_none_iff.mpr (by omega)] at hv
        exact Option.noConfusion hv
      have hq : lookups.getD s.lookupListIndex ⟨[]⟩ = lk := by
        have h2 := lookups_getElem?_eq lookups s.lookupListIndex hslt
        rw [hv] at h2
        injection h2 with h3
        exact h3.symm
      cases hsub : scanSubtables g lk.subtables with
      | some sub =>
        have hstep2 : scanRecords lookups g (s :: rest2) = .ok (some sub) := by
          simp only [scanRecords, hv, hsub]
        constructor
        · intro h
          rw [hstep2] at h
          exact Except.noConfusion h
        · rintro ⟨pre, bad, rest, heq, hpre, hbad, hnone⟩
          cases pre with
          | nil =>
            rw [List.nil_append] at heq
            injection heq with h1 h2
            subst h1
            omega
          | cons s2 pre2 =>
            rw [List.cons_append] at heq
            injection heq with h1 h2
            subst h1
            rw [List.flatMap_cons, List.findSome?_append, hq, ← scanSubtables_eq g,
              hsub] at hnone
            exact Option.noConfusion hnone
      | none =>
        have hstep : scanRecords lookups g (s :: rest2) = scanRecords lookups g rest2 := by
          simp only [scanRecords, hv, hsub]
        rw [hstep, ih]
        constructor
        · rintro ⟨pre, bad, rest, heq, hpre, hbad, hnone⟩
          refine ⟨s :: pre, bad, rest, by rw [List.cons_append, heq], ?_, hbad, ?_⟩
          · intro x hx
            rcases List.mem_cons.mp hx with rfl | hx2
            · exact hslt
            · exact hpre x hx2
          · rw [List.flatMap_cons, List.findSome?_append, hq, ← scanSubtables_eq g, hsub,
              Option.none_or]
            exact hnone
        · rintro ⟨pre, bad, rest, heq, hpre, hbad, hnone⟩
          cases pre with
          | nil =>
            rw [List.nil_append] at heq
            injection heq with h1 h2
            subst h1
            omega
          | cons s2 pre2 =>
            rw [List.cons_append] at heq
            injection heq with h1 h2
            subst h1
            refine ⟨pre2, bad, rest, h2, fun x hx => hpre x (List.mem_cons_of_mem s hx),
              hbad, ?_⟩
            rw [List.flatMap_cons, List.findSome?_append, hq, ← scanSubtables_eq g, hsub,
              Option.none_or] at hnone
            exact hnone

lemma scanRecordsRange_error_iff (lookups : List Lookup) (r : Nat × Nat) :
    ∀ l : List SubstitutionLookupRecord,
    scanRecordsRange lookups r l = .error .indexOutOfBounds ↔
      ∃ pre bad rest, l = pre ++ bad :: rest ∧
        (∀ s ∈ pre, s.lookupListIndex < lookups.length) ∧
        lookups.length ≤ bad.lookupListIndex ∧
        (pre.flatMap (fun s => (lookups.getD s.lookupListIndex ⟨[]⟩).subtables.map
          (fun t => getRangeSubstitutionGlyphs t r))).find?
            (fun sub => !(allNonNull sub)) = none := by
  intro l
  induction l with
  | nil =>
    constructor
    · intro h
      exact Except.noConfusion h
    · rintro ⟨pre, bad, rest, heq, -, -, -⟩
      cases pre <;> simp at heq
  | cons s rest2 ih =>
    cases hv : lookups[s.lookupListIndex]? with
    | none =>
      have hlen : lookups.length ≤ s.lookupListIndex := List.getElem?_eq_none_iff.mp hv
      constructor
      · intro _
        exact ⟨[], s, rest2, rfl, by simp, hlen, rfl⟩
      · intro _
        simp only [scanRecordsRange, hv]
    | some lk =>
      have hslt : s.lookupListIndex < lookups.length := by
        by_contra hc
        rw [List.getElem?_eq_none_iff.mpr (by omega)] at hv
        exact Option.noConfusion hv
      have hq : lookups.getD s.lookupListIndex ⟨[]⟩ = lk := by
        have h2 := lookups_getElem?_eq lookups s.lookupListIndex hslt
        rw [hv] at h2
        injection h2 with h3
        exact h3.symm
      cases hsub : scanSubtablesRange r lk.subtables with
      | some sub =>
        have hstep2 : scanRecordsRange lookups r (s :: rest2) = .ok sub := by
          simp only [scanRecordsRange, hv, hsub]
        constructor
        · intro h
          rw [hstep2] at h
          exact Except.noConfusion h
        · rintro ⟨pre, bad, rest, heq, hpre, hbad, hnone⟩
          cases pre with
          | nil =>
            rw [List.nil_append] at heq
            injection heq with h1 h2
            subst h1
            omega
          | cons s2 pre2 =>
            rw [List.cons_append] at heq
            injection heq with h1 h2
            subst h1
            rw [List.flatMap_cons, List.find?_append, hq, ← scanSubtablesRange_eq r,
              hsub] at hnone
            exact Option.noConfusion hnone
      | none =>
        have hstep : scanRecordsRange lookups r (s :: rest2) =
            scanRecordsRange lookups r rest2 := by
          simp only [scanRecordsRange, hv, hsub]
        rw [hstep, ih]
        constructor
        · rintro ⟨pre, bad, rest, heq, hpre, hbad, hnone⟩
          refine ⟨s :: pre, bad, rest, by rw [List.cons_append, heq], ?_, hbad, ?_⟩
          · intro x hx
            rcases List.mem_cons.mp hx with rfl | hx2
            · exact hslt
            · exact hpre x hx2
          · rw [List.flatMap_cons, List.find?_append, hq, ← scanSubtablesRange_eq r, hsub,
              Option.none_or]
            exact hnone
        · rintro ⟨pre, bad, rest, heq, hpre, hbad, hnone⟩
          cases pre with
          | nil =>
            rw [List.nil_append] at heq
            injection heq with h1 h2
            subst h1
            omega
          | cons s2 pre2 =>
            rw [List.cons_append] at heq
            injection heq with h1 h2
            subst h1
            refine ⟨pre2, bad, rest, h2, fun x hx => hpre x (List.mem_cons_of_mem s hx),
              hbad, ?_⟩
            rw [List.flatMap_cons, List.find?_append, hq, ← scanSubtablesRange_eq r, hsub,
              Option.none_or] at hnone
            exact hnone

/-- C5: `getSubstitutionAtPosition` scans exactly the records whose
`sequenceIndex` equals the position, in record order, and within each
record that lookup's subtables in order, returning the first non-null
output glyph and null when none applies; hence when two lookups at the
same position could both substitute a glyph, the first in record order
wins. -/
theorem C5_single_resolution_order (records : List SubstitutionLookupRecord)
    (lookups : List Lookup) (index g : Nat)
    (hv : ∀ s ∈ applicableRecords records index, s.lookupListIndex < lookups.length) :
    getSubstitutionAtPosition records lookups index g =
      .ok (((applicableRecords records index).flatMap
        (fun s => (lookups.getD s.lookupListIndex ⟨[]⟩).subtables.map
          (fun t => getIndividualSubstitutionGlyph t g))).findSome? (fun x => x)) :=
  scanRecords_eq lookups g (applicableRecords records index) hv

/-- C5 witness: two lookups at position 0 both substitute glyph 65; the
first in record order wins (output 100, not 200). -/
theorem C5_single_resolution_order_witness :
    getSubstitutionAtPosition [⟨0, 0⟩, ⟨0, 1⟩] [⟨[tbl65 100]⟩, ⟨[tbl65 200]⟩] 0 65 =
      .ok (some 100) :=
  (C5_single_resolution_order [⟨0, 0⟩, ⟨0, 1⟩] [⟨[tbl65 100]⟩, ⟨[tbl65 200]⟩] 0 65
    (by decide)).trans (by rfl)

/-- C1 counterexample: a subtable whose range query maps every glyph in the
range to a non-null output is NOT accepted — the scan skips it and falls
through to the no-substitution result, contradicting the claim's
all-substituted case. -/
theorem C1_counterexample :
    allNonNull (getRangeSubstitutionGlyphs tblFull (10, 12)) = true ∧
    getSubstitutionAtPositionRange [⟨0, 0⟩] [⟨[tblFull]⟩] 0 (10, 12) =
      .ok [(GlyphSpec.range 10 12, none)] ∧
    getRangeSubstitutionGlyphs tblFull (10, 12) ≠ [(GlyphSpec.range 10 12, none)] :=
  ⟨rfl, rfl, by decide⟩

/-- C1 (amended): the range resolver returns the first subtable range-query
mapping (scanning the applicable lookups' subtables in order) that has at
least one null value — a fully non-null mapping is skipped — and if every
query is fully non-null, or there is no applicable lookup, the result is
the single pair (whole range, null). -/
theorem C1_range_resolution (records : List SubstitutionLookupRecord)
    (lookups : List Lookup) (index : Nat) (r : Nat × Nat)
    (hv : ∀ s ∈ applicableRecords records index, s.lookupListIndex < lookups.length) :
    getSubstitutionAtPositionRange records lookups index r =
      .ok (((applicableRecords records index).flatMap
        (fun s => (lookups.getD s.lookupListIndex ⟨[]⟩).subtables.map
          (fun t => getRangeSubstitutionGlyphs t r))).find?
            (fun sub => !(allNonNull sub)) |>.getD [(GlyphSpec.range r.1 r.2, none)]) :=
  scanRecordsRange_eq lookups r (applicableRecords records index) hv

/-- C1 witness: a partially defined range query (one glyph substituted, the
rest null) is returned as the finer-grained mapping. -/
theorem C1_range_resolution_witness :
    getSubstitutionAtPositionRange [⟨0, 0⟩] [⟨[tblSplit]⟩] 0 (10, 20) =
      .ok [(GlyphSpec.single 12, some 50), (GlyphSpec.range 13 20, none)] :=
  (C1_range_resolution [⟨0, 0⟩] [⟨[tblSplit]⟩] 0 (10, 20) (by decide)).trans (by rfl)

/-- C9 counterexample: a record whose `lookupListIndex` is out of range but
whose `sequenceIndex` differs from the queried position is filtered out, so
both resolvers return a result instead of propagating a fault — the
claim's unconditional "if some record's lookupListIndex is out of range,
the operation propagates a fault" is false. -/
theorem C9_counterexample :
    ([] : List Lookup).length ≤ 99 ∧
    getSubstitutionAtPosition [⟨1, 99⟩] [] 0 7 = .ok none ∧
    getSubstitutionAtPositionRange [⟨1, 99⟩] [] 0 (3, 5) =
      .ok [(GlyphSpec.range 3 5, none)] :=
  ⟨by decide, rfl, rfl⟩

/-- C9 (amended): when every record's `lookupListIndex` is in range both
resolvers return a result (`isOk`), with null results for the
not-substituted case; and a fault is propagated exactly when (iff) the
ordered scan of the applicable records (those whose `sequenceIndex` equals
the position) reaches a record whose `lookupListIndex` is out of range
before any earlier applicable record has resolved a substitution — so an
out-of-range record that is filtered out, or never reached because an
earlier record resolved first, does not fault (`isOk` holds iff no such
decomposition exists). -/
theorem C9_fault_semantics (records : List SubstitutionLookupRecord) (lookups : List Lookup)
    (index g : Nat) (r : Nat × Nat) :
    ((∀ s ∈ records, s.lookupListIndex < lookups.length) →
      (getSubstitutionAtPosition records lookups index g).isOk = true ∧
      (getSubstitutionAtPositionRange records lookups index r).isOk = true ∧
      (((applicableRecords records index).flatMap
        (fun s => (lookups.getD s.lookupListIndex ⟨[]⟩).subtables.map
          (fun t => getIndividualSubstitutionGlyph t g))).findSome? (fun x => x) = none →
        getSubstitutionAtPosition records lookups index g = .ok none) ∧
      (applicableRecords records index = [] →
        getSubstitutionAtPositionRange records lookups index r =
          .ok [(GlyphSpec.range r.1 r.2, none)])) ∧
    (getSubstitutionAtPosition records lookups index g = .error .indexOutOfBounds ↔
      ∃ pre bad rest, applicableRecords records index = pre ++ bad :: rest ∧
        (∀ s ∈ pre, s.lookupListIndex < lookups.length) ∧
        lookups.length ≤ bad.lookupListIndex ∧
        (pre.flatMap (fun s => (lookups.getD s.lookupListIndex ⟨[]⟩).subtables.map
          (fun t => getIndividualSubstitutionGlyph t g))).findSome? (fun x => x) = none) ∧
    (getSubstitutionAtPositionRange records lookups index r = .error .indexOutOfBounds ↔
      ∃ pre bad rest, applicableRecords records index = pre ++ bad :: rest ∧
        (∀ s ∈ pre, s.lookupListIndex < lookups.length) ∧
        lookups.length ≤ bad.lookupListIndex ∧
        (pre.flatMap (fun s => (lookups.getD s.lookupListIndex ⟨[]⟩).subtables.map
          (fun t => getRangeSubstitutionGlyphs t r))).find?
            (fun sub => !(allNonNull sub)) = none) ∧
    ((getSubstitutionAtPosition records lookups index g).isOk = true ↔
      ¬ getSubstitutionAtPosition records lookups index g = .error .indexOutOfBounds) ∧
    ((getSubstitutionAtPositionRange records lookups index r).isOk = true ↔
      ¬ getSubstitutionAtPositionRange records lookups index r =
        .error .indexOutOfBounds) := by
  refine ⟨?_, ?_, ?_, ?_, ?_⟩
  · intro hv
    have hvf : ∀ s ∈ applicableRecords records index, s.lookupListIndex < lookups.length :=
      fun s hs => hv s (List.mem_of_mem_filter hs)
    refine ⟨?_, ?_, ?_, ?_⟩
    · rw [getSubstitutionAtPosition, scanRecords_eq lookups g _ hvf]; rfl
    · rw [getSubstitutionAtPositionRange, scanRecordsRange_eq lookups r _ hvf]; rfl
    · intro hnone
      rw [getSubstitutionAtPosition, scanRecords_eq lookups g _ hvf, hnone]
    · intro hempty
      rw [getSubstitutionAtPositionRange, hempty]
      rfl
  · exact scanRecords_error_iff lookups g (applicableRecords records index)
  · exact scanRecordsRange_error_iff lookups r (applicableRecords records index)
  · exact exceptFault_isOk_iff (getSubstitutionAtPosition records lookups index g)
  · exact exceptFault_isOk_iff (getSubstitutionAtPositionRange records lookups index r)

/-- C9 witness: with a valid record both resolvers return `ok`; an
applicable out-of-range record faults; a filtered-out out-of-range record
does not fault; and an out-of-range record behind a resolving record is
never reached, so the range resolver still returns `ok`. -/
theorem C9_fault_semantics_witness :
    (getSubstitutionAtPosition [⟨0, 0⟩] [⟨[]⟩] 0 5).isOk = true ∧
    getSubstitutionAtPosition [⟨0, 5⟩] [] 0 5 = Except.error Fault.indexOutOfBounds ∧
    (getSubstitutionAtPosition [⟨1, 99⟩] [] 0 7).isOk = true ∧
    (getSubstitutionAtPositionRange [⟨0, 0⟩, ⟨0, 99⟩] [⟨[tblSplit]⟩] 0 (10, 20)).isOk
      = true := by
  have h1 := C9_fault_semantics [⟨0, 0⟩] [⟨[]⟩] 0 5 (3, 4)
  have h2 := C9_fault_semantics [⟨0, 5⟩] [] 0 5 (3, 4)
  have h3 := C9_fault_semantics [⟨1, 99⟩] [] 0 7 (0, 0)
  have h4 := C9_fault_semantics [⟨0, 0⟩, ⟨0, 99⟩] [⟨[tblSplit]⟩] 0 0 (10, 20)
  refine ⟨(h1.1 (by decide)).1, ?_, ?_, ?_⟩
  · exact h2.2.1.mpr ⟨[], ⟨0, 5⟩, [], rfl, by simp, by decide, rfl⟩
  · refine h3.2.2.2.1.mpr ?_
    intro herr
    obtain ⟨pre, bad, rest, heq, hpre, hbad, hnone⟩ := h3.2.1.mp herr
    have heq2 : ([] : List SubstitutionLookupRecord) = pre ++ bad :: rest := heq
    cases pre <;> simp at heq2
  · refine h4.2.2.2.2.mpr ?_
    intro herr
    obtain ⟨pre, bad, rest, heq, hpre, hbad, hnone⟩ := h4.2.2.1.mp herr
    have heq2 : [(⟨0, 0⟩ : SubstitutionLookupRecord), ⟨0, 99⟩] = pre ++ bad :: rest := heq
    cases pre with
    | nil =>
      injection heq2 with hh1 hh2
      rw [← hh1] at hbad
      exact absurd hbad (by decide)
    | cons a pre2 =>
      injection heq2 with hh1 hh2
      cases pre2 with
      | nil =>
        rw [← hh1] at hnone
        exact absurd hnone (by decide)
      | cons b pre3 =>
        injection hh2 with hh3 hh4
        cases pre3 <;> simp at hh4

/-! ### Lemmas about the JS-Map model and the arena -/

lemma find?_map_overwrite (m : List (Nat × Nat)) (k v : Nat)
    (h : m.any (fun p => p.1 == k) = true) :
    (m.map (fun p => if p.1 == k then (k, v) else p)).find? (fun p => p.1 == k) =
      some (k, v) := by
  induction m with
  | nil => simp at h
  | cons p rest ih =>
    simp only [List.map_cons]
    by_cases hpk : (p.1 == k) = true
    · rw [if_pos hpk]
      simp [List.find?]
    · have hf : (p.1 == k) = false := by simpa using hpk
      rw [if_neg hpk]
      simp only [List.find?, hf]
      exact ih (by simpa [List.any_cons, hf] using h)

lemma find?_map_overwrite_ne (m : List (Nat × Nat)) (k v k' : Nat) (hne : k' ≠ k) :
    (m.map (fun p => if p.1 == k then (k, v) else p)).find? (fun p => p.1 == k') =
      m.find? (fun p => p.1 == k') := by
  induction m with
  | nil => rfl
  | cons p rest ih =>
    simp only [List.map_cons]
    by_cases hpk : (p.1 == k) = true
    · have hp1 : p.1 = k := by simpa using hpk
      have h1 : (k == k') = false := by simp [Ne.symm hne]
      have h2 : (p.1 == k') = false := by simp [hp1, Ne.symm hne]
      rw [if_pos hpk]
      simp only [List.find?, h1, h2]
      exact ih
    · rw [if_neg hpk]
      cases hpk' : (p.1 == k') with
      | true => simp only [List.find?, hpk']
      | false =>
        simp only [List.find?, hpk']
        exact ih

lemma find?_eq_none_of_any_false (m : List (Nat × Nat)) (k : Nat)
    (h : m.any (fun p => p.1 == k) = false) :
    m.find? (fun p => p.1 == k) = none :=
  List.find?_eq_none.mpr (List.any_eq_false.mp h)

lemma mapGet_mapSet (m : List (Nat × Nat)) (k v : Nat) :
    mapGet (mapSet m k v) k = some v := by
  unfold mapGet mapSet
  cases h : m.any (fun p => p.1 == k) with
  | true =>
    rw [if_pos rfl, find?_map_overwrite m k v h]
    rfl
  | false =>
    rw [if_neg (by simp), List.find?_append, find?_eq_none_of_any_false m k h,
      Option.none_or]
    simp [List.find?]

lemma mapGet_mapSet_ne (m : List (Nat × Nat)) (k v k' : Nat) (hne : k' ≠ k) :
    mapGet (mapSet m k v) k' = mapGet m k' := by
  unfold mapGet mapSet
  cases h : m.any (fun p => p.1 == k) with
  | true => rw [if_pos rfl, find?_map_overwrite_ne m k v k' hne]
  | false =>
    have h1 : (k == k') = false := by simp [Ne.symm hne]
    rw [if_neg (by simp), List.find?_append]
    simp only [List.find?, h1, Option.or_none]

lemma getNode_set_self (st : Arena) (k : Nat) (v : LookupTreeEntry) (hk : k < st.length) :
    getNode (st.set k v) k = v := by
  unfold getNode
  rw [List.getD_eq_getElem?_getD, List.getElem?_set_self (by simpa using hk)]
  rfl

lemma getNode_set_ne (st : Arena) (k : Nat) (v : LookupTreeEntry) (i : Nat) (h : k ≠ i) :
    getNode (st.set k v) i = getNode st i := by
  unfold getNode
  rw [List.getD_eq_getElem?_getD, List.getElem?_set_ne h, ← List.getD_eq_getElem?_getD]

lemma getNode_of_length_le (st : Arena) (i : Nat) (h : st.length ≤ i) :
    getNode st i = emptyEntry := by
  unfold getNode
  rw [List.getD_eq_getElem?_getD, List.getElem?_eq_none_iff.mpr h]
  rfl

lemma getNode_append (st : Arena) (ex : List LookupTreeEntry) (i : Nat) (h : i < st.length) :
    getNode (st ++ ex) i = getNode st i :=
  List.getD_append st ex emptyEntry i h

lemma getNode_append_all (st : Arena) (ex : List LookupTreeEntry)
    (hex : ∀ e ∈ ex, e = emptyEntry) (i : Nat) : getNode (st ++ ex) i = getNode st i := by
  by_cases h : i < st.length
  · exact getNode_append st ex i h
  · rw [getNode_of_length_le st i (by omega)]
    unfold getNode
    rw [List.getD_eq_getElem?_getD]
    cases h2 : (st ++ ex)[i]? with
    | none => rfl
    | some e =>
      rw [List.getElem?_append_right (by omega)] at h2
      exact hex e (List.getElem?_mem h2)

lemma getNode_append_ge (st : Arena) (ex : List LookupTreeEntry)
    (hex : ∀ e ∈ ex, e = emptyEntry) (i : Nat) (h : st.length ≤ i) :
    getNode (st ++ ex) i = emptyEntry := by
  rw [getNode_append_all st ex hex i]
  exact getNode_of_length_le st i h

/-- C7: for every call to `getInputTree` with a single-glyph candidate, a
brand-new empty child (the freshly allocated node) is stored in the
branch-point's individual map under that glyph ID — even if a child
already existed there, which is discarded — and the entry returned in the
result is exactly the entry now stored in the map. -/
theorem C7_individual_overwrite (tree : BranchPoint) (n : Nat)
    (records : List SubstitutionLookupRecord) (lookups : List Lookup) (pos g : Nat)
    (sub : Option Nat)
    (hsub : getSubstitutionAtPosition records lookups pos g = .ok sub) :
    getInputTree tree n records lookups pos (GlyphSpec.single g) =
      .ok ({ tree with individual := mapSet tree.individual g n }, [emptyEntry], [(n, sub)]) ∧
    mapGet (mapSet tree.individual g n) g = some n ∧
    (∀ v, mapGet tree.individual g = some v → v ≠ n →
      mapGet (mapSet tree.individual g n) g ≠ some v) := by
  refine ⟨?_, mapGet_mapSet tree.individual g n, ?_⟩
  · simp only [getInputTree]
    rw [hsub]
    rfl
  · intro v hv hne
    rw [mapGet_mapSet]
    intro hc
    injection hc with hc
    exact hne hc.symm

/-- C7 witness: glyph 9 already has child 0; the call stores and returns the
fresh child 3 and the old child is no longer reachable under glyph 9. -/
theorem C7_individual_overwrite_witness :
    getInputTree ⟨[(9, 0)], []⟩ 3 [] [] 0 (GlyphSpec.single 9) =
      .ok (⟨[(9, 3)], []⟩, [emptyEntry], [(3, none)]) ∧
    mapGet [(9, 3)] 9 = some 3 ∧
    mapGet (mapSet [(9, 0)] 9 3) 9 ≠ some 0 :=
  have h := C7_individual_overwrite ⟨[(9, 0)], []⟩ 3 [] [] 0 9 none rfl
  ⟨h.1, h.2.1, h.2.2 0 rfl (by decide)⟩

/-- C2 demonstration: compiling the same single-position rule (input
candidate glyph 65, no substitutions) twice from the same root does NOT
reuse the first rule's child node: the first call creates child 1, the
second call resets the root's forward table and creates a fresh child 2, so
the two rules' paths do not share node identity. -/
theorem C2_no_tree_sharing :
    processInputPosition [GlyphSpec.single 65] 0 [⟨0, []⟩] [] [] [emptyEntry] =
      .ok ([⟨some ⟨[(65, 1)], []⟩, none⟩, emptyEntry], [⟨1, [none]⟩]) ∧
    processInputPosition [GlyphSpec.single 65] 0 [⟨0, []⟩] [] []
        [⟨some ⟨[(65, 1)], []⟩, none⟩, emptyEntry] =
      .ok ([⟨some ⟨[(65, 2)], []⟩, none⟩, emptyEntry, emptyEntry], [⟨2, [none]⟩]) ∧
    mapGet [(65, 2)] 65 = some 2 ∧ (2 : Nat) ≠ 1 :=
  ⟨rfl, rfl, rfl, by decide⟩

/-! ### Lemmas about the range loop of getInputTree -/

lemma widthSum_mono (subs : List (GlyphSpec × Option Nat)) :
    ∀ i j, i ≤ j → widthSum subs i ≤ widthSum subs j := by
  induction subs with
  | nil => intro i j _; cases i <;> cases j <;> simp [widthSum]
  | cons p rest ih =>
    intro i j hij
    cases i with
    | zero => cases j <;> simp [widthSum]
    | succ i' =>
      cases j with
      | zero => omega
      | succ j' =>
        simp only [widthSum]
        have := ih i' j' (by omega)
        omega

lemma widthSum_succ_single (subs : List (GlyphSpec × Option Nat)) :
    ∀ (j g : Nat) (sub : Option Nat), subs[j]? = some (GlyphSpec.single g, sub) →
    widthSum subs (j + 1) = widthSum subs j + 2 := by
  induction subs with
  | nil => intro j g sub h; simp at h
  | cons p rest ih =>
    intro j g sub h
    cases j with
    | zero =>
      rw [List.getElem?_cons_zero] at h
      injection h with h
      subst h
      simp [widthSum, allocWidth]
    | succ j' =>
      rw [List.getElem?_cons_succ] at h
      simp only [widthSum]
      have := ih j' g sub h
      omega

lemma single_offset_ne (subs : List (GlyphSpec × Option Nat)) (j g : Nat) (sub : Option Nat)
    (hj : subs[j]? = some (GlyphSpec.single g, sub)) (i : Nat) :
    widthSum subs j + 1 ≠ widthSum subs i := by
  rcases le_or_lt i j with hle | hlt
  · have := widthSum_mono subs i j hle
    omega
  · have h1 := widthSum_succ_single subs j g sub hj
    have h2 := widthSum_mono subs (j + 1) i hlt
    omega

lemma inputRangeLoop_res_length (subs : List (GlyphSpec × Option Nat)) :
    ∀ (tree : BranchPoint) (n : Nat),
    (inputRangeLoop tree n subs).2.2.length = subs.length := by
  induction subs with
  | nil => intro tree n; rfl
  | cons p rest ih =>
    intro tree n
    obtain ⟨key, sub⟩ := p
    cases key with
    | single g =>
      have hlen := ih { tree with individual := mapSet tree.individual g (n + 1) } (n + 2)
      rcases hrec : inputRangeLoop
        { tree with individual := mapSet tree.individual g (n + 1) } (n + 2) rest
        with ⟨t, fresh, res⟩
      rw [hrec] at hlen
      simp [inputRangeLoop, hrec]
      exact hlen
    | range lo hi =>
      have hlen := ih { tree with range := tree.range ++ [((lo, hi), n)] } (n + 1)
      rcases hrec : inputRangeLoop
        { tree with range := tree.range ++ [((lo, hi), n)] } (n + 1) rest
        with ⟨t, fresh, res⟩
      rw [hrec] at hlen
      simp [inputRangeLoop, hrec]
      exact hlen

lemma inputRangeLoop_fresh_empty (subs : List (GlyphSpec × Option Nat)) :
    ∀ (tree : BranchPoint) (n : Nat),
    ∀ e ∈ (inputRangeLoop tree n subs).2.1, e = emptyEntry := by
  induction subs with
  | nil => intro tree n e he; simp [inputRangeLoop] at he
  | cons p rest ih =>
    intro tree n e he
    obtain ⟨key, sub⟩ := p
    cases key with
    | single g =>
      rcases hrec : inputRangeLoop
        { tree with individual := mapSet tree.individual g (n + 1) } (n + 2) rest
        with ⟨t, fresh, res⟩
      have hall := ih { tree with individual := mapSet tree.individual g (n + 1) } (n + 2)
      rw [hrec] at hall
      simp only [inputRangeLoop, hrec, List.mem_cons] at he
      rcases he with rfl | rfl | he
      · rfl
      · rfl
      · exact hall e he
    | range lo hi =>
      rcases hrec : inputRangeLoop
        { tree with range := tree.range ++ [((lo, hi), n)] } (n + 1) rest
        with ⟨t, fresh, res⟩
      have hall := ih { tree with range := tree.range ++ [((lo, hi), n)] } (n + 1)
      rw [hrec] at hall
      simp only [inputRangeLoop, hrec, List.mem_cons] at he
      rcases he with rfl | he
      · rfl
      · exact hall e he

lemma inputRangeLoop_res_get (subs : List (GlyphSpec × Option Nat)) :
    ∀ (tree : BranchPoint) (n i : Nat) (q : GlyphSpec × Option Nat), subs[i]? = some q →
    (inputRangeLoop tree n subs).2.2[i]? = some (n + widthSum subs i, q.2) := by
  induction subs with
  | nil => intro tree n i q h; simp at h
  | cons p rest ih =>
    intro tree n i q h
    obtain ⟨key, sub⟩ := p
    cases key with
    | single g =>
      rcases hrec : inputRangeLoop
        { tree with individual := mapSet tree.individual g (n + 1) } (n + 2) rest
        with ⟨t, fresh, res⟩
      cases i with
      | zero =>
        rw [List.getElem?_cons_zero] at h
        injection h with h
        subst h
        simp [inputRangeLoop, hrec, widthSum]
      | succ i' =>
        rw [List.getElem?_cons_succ] at h
        have hres := ih { tree with individual := mapSet tree.individual g (n + 1) }
          (n + 2) i' q h
        rw [hrec] at hres
        simp only [inputRangeLoop, hrec, List.getElem?_cons_succ]
        rw [hres]
        have : n + 2 + widthSum rest i' =
            n + widthSum ((GlyphSpec.single g, sub) :: rest) (i' + 1) := by
          simp only [widthSum, allocWidth]
          omega
        rw [this]
    | range lo hi =>
      rcases hrec : inputRangeLoop
        { tree with range := tree.range ++ [((lo, hi), n)] } (n + 1) rest
        with ⟨t, fresh, res⟩
      cases i with
      | zero =>
        rw [List.getElem?_cons_zero] at h
        injection h with h
        subst h
        simp [inputRangeLoop, hrec, widthSum]
      | succ i' =>
        rw [List.getElem?_cons_succ] at h
        have hres := ih { tree with range := tree.range ++ [((lo, hi), n)] } (n + 1) i' q h
        rw [hrec] at hres
        simp only [inputRangeLoop, hrec, List.getElem?_cons_succ]
        rw [hres]
        have : n + 1 + widthSum rest i' =
            n + widthSum ((GlyphSpec.range lo hi, sub) :: rest) (i' + 1) := by
          simp only [widthSum, allocWidth]
          omega
        rw [this]

lemma inputRangeLoop_individual_frame (subs : List (GlyphSpec × Option Nat)) :
    ∀ (tree : BranchPoint) (n k : Nat),
    (∀ q ∈ subs, q.1 ≠ GlyphSpec.single k) →
    mapGet (inputRangeLoop tree n subs).1.individual k = mapGet tree.individual k := by
  induction subs with
  | nil => intro tree n k _; rfl
  | cons p rest ih =>
    intro tree n k hk
    obtain ⟨key, sub⟩ := p
    cases key with
    | single g =>
      have hgk : k ≠ g := by
        intro hc
        exact hk (GlyphSpec.single g, sub) (List.mem_cons_self _ _) (by rw [hc])
      rcases hrec : inputRangeLoop
        { tree with individual := mapSet tree.individual g (n + 1) } (n + 2) rest
        with ⟨t, fresh, res⟩
      have hfr := ih { tree with individual := mapSet tree.individual g (n + 1) } (n + 2) k
        (fun q hq => hk q (List.mem_cons_of_mem _ hq))
      rw [hrec] at hfr
      simp only [inputRangeLoop, hrec]
      rw [hfr]
      exact mapGet_mapSet_ne tree.individual g (n + 1) k hgk
    | range lo hi =>
      rcases hrec : inputRangeLoop
        { tree with range := tree.range ++ [((lo, hi), n)] } (n + 1) rest
        with ⟨t, fresh, res⟩
      have hfr := ih { tree with range := tree.range ++ [((lo, hi), n)] } (n + 1) k
        (fun q hq => hk q (List.mem_cons_of_mem _ hq))
      rw [hrec] at hfr
      simp only [inputRangeLoop, hrec]
      exact hfr

lemma inputRangeLoop_individual_key (subs : List (GlyphSpec × Option Nat)) :
    ∀ (tree : BranchPoint) (n k : Nat),
    (∃ q ∈ subs, q.1 = GlyphSpec.single k) →
    ∃ (j : Nat) (sub2 : Option Nat), subs[j]? = some (GlyphSpec.single k, sub2) ∧
      mapGet (inputRangeLoop tree n subs).1.individual k =
        some (n + widthSum subs j + 1) := by
  induction subs with
  | nil =>
    intro tree n k h
    rcases h with ⟨q, hq, _⟩
    simp at hq
  | cons p rest ih =>
    intro tree n k h
    obtain ⟨key, sub⟩ := p
    by_cases hrest : ∃ q ∈ rest, q.1 = GlyphSpec.single k
    · cases key with
      | single g =>
        rcases hrec : inputRangeLoop
          { tree with individual := mapSet tree.individual g (n + 1) } (n + 2) rest
          with ⟨t, fresh, res⟩
        obtain ⟨j, sub2, hj, hmap⟩ :=
          ih { tree with individual := mapSet tree.individual g (n + 1) } (n + 2) k hrest
        rw [hrec] at hmap
        refine ⟨j + 1, sub2, by rw [List.getElem?_cons_succ]; exact hj, ?_⟩
        simp only [inputRangeLoop, hrec]
        rw [hmap]
        have : n + 2 + widthSum rest j + 1 =
            n + widthSum ((GlyphSpec.single g, sub) :: rest) (j + 1) + 1 := by
          simp only [widthSum, allocWidth]
          omega
        rw [this]
      | range lo hi =>
        rcases hrec : inputRangeLoop
          { tree with range := tree.range ++ [((lo, hi), n)] } (n + 1) rest
          with ⟨t, fresh, res⟩
        obtain ⟨j, sub2, hj, hmap⟩ :=
          ih { tree with range := tree.range ++ [((lo, hi), n)] } (n + 1) k hrest
        rw [hrec] at hmap
        refine ⟨j + 1, sub2, by rw [List.getElem?_cons_succ]; exact hj, ?_⟩
        simp only [inputRangeLoop, hrec]
        rw [hmap]
        have : n + 1 + widthSum rest j + 1 =
            n + widthSum ((GlyphSpec.range lo hi, sub) :: rest) (j + 1) + 1 := by
          simp only [widthSum, allocWidth]
          omega
        rw [this]
    · have hhead : key = GlyphSpec.single k := by
        rcases h with ⟨q, hq, hq1⟩
        rcases List.mem_cons.mp hq with h1 | h1
        · rw [h1] at hq1
          exact hq1
        · exact absurd ⟨q, h1, hq1⟩ hrest
      subst hhead
      rcases hrec : inputRangeLoop
        { tree with individual := mapSet tree.individual k (n + 1) } (n + 2) rest
        with ⟨t, fresh, res⟩
      have hfr := inputRangeLoop_individual_frame rest
        { tree with individual := mapSet tree.individual k (n + 1) } (n + 2) k
        (fun q hq hc => hrest ⟨q, hq, hc⟩)
      rw [hrec] at hfr
      refine ⟨0, sub, by simp, ?_⟩
      simp only [inputRangeLoop, hrec]
      rw [hfr, mapGet_mapSet]
      have : n + 1 = n + widthSum ((GlyphSpec.single k, sub) :: rest) 0 + 1 := by
        simp [widthSum]
      rw [this]

lemma inputRangeLoop_range_mono (subs : List (GlyphSpec × Option Nat)) :
    ∀ (tree : BranchPoint) (n : Nat) (x : (Nat × Nat) × Nat), x ∈ tree.range →
    x ∈ (inputRangeLoop tree n subs).1.range := by
  induction subs with
  | nil => intro tree n x hx; exact hx
  | cons p rest ih =>
    intro tree n x hx
    obtain ⟨key, sub⟩ := p
    cases key with
    | single g =>
      rcases hrec : inputRangeLoop
        { tree with individual := mapSet tree.individual g (n + 1) } (n + 2) rest
        with ⟨t, fresh, res⟩
      have := ih { tree with individual := mapSet tree.individual g (n + 1) } (n + 2) x hx
      rw [hrec] at this
      simp only [inputRangeLoop, hrec]
      exact this
    | range lo hi =>
      rcases hrec : inputRangeLoop
        { tree with range := tree.range ++ [((lo, hi), n)] } (n + 1) rest
        with ⟨t, fresh, res⟩
      have := ih { tree with range := tree.range ++ [((lo, hi), n)] } (n + 1) x
        (List.mem_append_left _ hx)
      rw [hrec] at this
      simp only [inputRangeLoop, hrec]
      exact this

lemma inputRangeLoop_range_linked (subs : List (GlyphSpec × Option Nat)) :
    ∀ (tree : BranchPoint) (n i lo hi : Nat) (sub : Option Nat),
    subs[i]? = some (GlyphSpec.range lo hi, sub) →
    ((lo, hi), n + widthSum subs i) ∈ (inputRangeLoop tree n subs).1.range := by
  induction subs with
  | nil => intro tree n i lo hi sub h; simp at h
  | cons p rest ih =>
    intro tree n i lo hi sub h
    obtain ⟨key, sub'⟩ := p
    cases i with
    | zero =>
      rw [List.getElem?_cons_zero] at h
      injection h with h
      injection h with h1 h2
      subst h1
      rcases hrec : inputRangeLoop
        { tree with range := tree.range ++ [((lo, hi), n)] } (n + 1) rest
        with ⟨t, fresh, res⟩
      have := inputRangeLoop_range_mono rest
        { tree with range := tree.range ++ [((lo, hi), n)] } (n + 1) ((lo, hi), n)
        (by simp)
      rw [hrec] at this
      simp only [inputRangeLoop, hrec]
      have h0 : n + widthSum ((GlyphSpec.range lo hi, sub') :: rest) 0 = n := by
        simp [widthSum]
      rw [h0]
      exact this
    | succ i' =>
      rw [List.getElem?_cons_succ] at h
      cases key with
      | single g =>
        rcases hrec : inputRangeLoop
          { tree with individual := mapSet tree.individual g (n + 1) } (n + 2) rest
          with ⟨t, fresh, res⟩
        have := ih { tree with individual := mapSet tree.individual g (n + 1) }
          (n + 2) i' lo hi sub h
        rw [hrec] at this
        simp only [inputRangeLoop, hrec]
        have harith : n + 2 + widthSum rest i' =
            n + widthSum ((GlyphSpec.single g, sub') :: rest) (i' + 1) := by
          simp only [widthSum, allocWidth]
          omega
        rw [← harith]
        exact this
      | range lo2 hi2 =>
        rcases hrec : inputRangeLoop
          { tree with range := tree.range ++ [((lo2, hi2), n)] } (n + 1) rest
          with ⟨t, fresh, res⟩
        have := ih { tree with range := tree.range ++ [((lo2, hi2), n)] }
          (n + 1) i' lo hi sub h
        rw [hrec] at this
        simp only [inputRangeLoop, hrec]
        have harith : n + 1 + widthSum rest i' =
            n + widthSum ((GlyphSpec.range lo2 hi2, sub') :: rest) (i' + 1) := by
          simp only [widthSum, allocWidth]
          omega
        rw [← harith]
        exact this

/-- C8 (implicit behavior): for a range candidate whose resolved sub-mapping
contains an individual-glyph key (a partial split), `getInputTree` stores a
fresh node in the individual map under that glyph whose arena index differs
from the index of every entry pushed into the returned result list — so the
entry the builder continues with is not the child reachable from the tree
at that glyph — while a range-keyed pair links exactly the returned entry
into the range list. -/
theorem C8_range_split_disconnected (tree : BranchPoint) (n : Nat)
    (records : List SubstitutionLookupRecord) (lookups : List Lookup) (pos lo hi : Nat)
    (subs : List (GlyphSpec × Option Nat))
    (hsubs : getSubstitutionAtPositionRange records lookups pos (lo, hi) = .ok subs) :
    ∃ tree2 fresh res,
      getInputTree tree n records lookups pos (GlyphSpec.range lo hi) =
        .ok (tree2, fresh, res) ∧
      res.length = subs.length ∧
      (∀ e ∈ fresh, e = emptyEntry) ∧
      (∀ (i : Nat) (q : GlyphSpec × Option Nat), subs[i]? = some q →
        res[i]? = some (n + widthSum subs i, q.2)) ∧
      (∀ (i g : Nat) (sub : Option Nat), subs[i]? = some (GlyphSpec.single g, sub) →
        ∃ b, mapGet tree2.individual g = some b ∧ ∀ i2, b ≠ n + widthSum subs i2) ∧
      (∀ (i lo2 hi2 : Nat) (sub : Option Nat), subs[i]? = some (GlyphSpec.range lo2 hi2, sub) →
        ((lo2, hi2), n + widthSum subs i) ∈ tree2.range) := by
  rcases hrec : inputRangeLoop tree n subs with ⟨t2, fresh, res⟩
  refine ⟨t2, fresh, res, ?_, ?_, ?_, ?_, ?_, ?_⟩
  · simp only [getInputTree]
    rw [hsubs]
    show Except.ok (inputRangeLoop tree n subs) = Except.ok (t2, fresh, res)
    rw [hrec]
  · have := inputRangeLoop_res_length subs tree n
    rw [hrec] at this
    exact this
  · have := inputRangeLoop_fresh_empty subs tree n
    rw [hrec] at this
    exact this
  · intro i q hq
    have := inputRangeLoop_res_get subs tree n i q hq
    rw [hrec] at this
    exact this
  · intro i g sub hq
    have hex : ∃ q ∈ subs, q.1 = GlyphSpec.single g :=
      ⟨(GlyphSpec.single g, sub), List.getElem?_mem hq, rfl⟩
    obtain ⟨j, sub2, hj, hmap⟩ := inputRangeLoop_individual_key subs tree n g hex
    rw [hrec] at hmap
    refine ⟨n + widthSum subs j + 1, hmap, ?_⟩
    intro i2
    have := single_offset_ne subs j g sub2 hj i2
    omega
  · intro i lo2 hi2 sub hq
    have := inputRangeLoop_range_linked subs tree n i lo2 hi2 sub hq
    rw [hrec] at this
    exact this

/-- C8 witness: the split `[(single 12, some 50), (range 13 20, none)]` at
fresh index 5 — the map stores child 6 under glyph 12 while the result
carries entry 5; the range pair links entry 7 directly. -/
theorem C8_range_split_disconnected_witness :
    ∃ tree2 fresh res,
      getInputTree emptyBP 5 [⟨0, 0⟩] [⟨[tblSplit]⟩] 0 (GlyphSpec.range 10 20) =
        .ok (tree2, fresh, res) ∧
      res.length = subsSplit.length ∧
      (∀ e ∈ fresh, e = emptyEntry) ∧
      (∀ (i : Nat) (q : GlyphSpec × Option Nat), subsSplit[i]? = some q →
        res[i]? = some (5 + widthSum subsSplit i, q.2)) ∧
      (∀ (i g : Nat) (sub : Option Nat),
        subsSplit[i]? = some (GlyphSpec.single g, sub) →
        ∃ b, mapGet tree2.individual g = some b ∧
          ∀ i2, b ≠ 5 + widthSum subsSplit i2) ∧
      (∀ (i lo2 hi2 : Nat) (sub : Option Nat),
        subsSplit[i]? = some (GlyphSpec.range lo2 hi2, sub) →
        ((lo2, hi2), 5 + widthSum subsSplit i) ∈ tree2.range) :=
  C8_range_split_disconnected emptyBP 5 [⟨0, 0⟩] [⟨[tblSplit]⟩] 0 10 20 subsSplit rfl

/-! ### Lemmas about backtrack and lookahead steps -/

lemma revExtended_mono (L L2 : Nat) (ds : List GlyphSpec) (a b : LookupTreeEntry)
    (hL : L ≤ L2) (h : RevExtended L2 ds a b) : RevExtended L ds a b := by
  obtain ⟨bp2, h1, h2, h3, h4⟩ := h
  exact ⟨bp2, h1, h2, h3, fun k hk => by
    obtain ⟨c, hc1, hc2⟩ := h4 k hk
    exact ⟨c, hc1, by omega⟩⟩

lemma revExtended_trans (L : Nat) (ds : List GlyphSpec) (a b c : LookupTreeEntry)
    (hab : RevExtended L ds a b) (hbc : RevExtended L ds b c) : RevExtended L ds a c := by
  obtain ⟨bp2, hb, hr2, hi2, hk2⟩ := hab
  obtain ⟨bp3, hc, hr3, hi3, hk3⟩ := hbc
  refine ⟨bp3, hc, ?_, ?_, hk3⟩
  · obtain ⟨t1, ht1⟩ := hr2
    obtain ⟨t2, ht2⟩ := hr3
    rw [hb] at ht2
    exact ⟨t1 ++ t2, by rw [ht2]; simp only [Option.getD_some, ht1, List.append_assoc]⟩
  · intro k hk
    have := hi3 k hk
    rw [hb] at this
    simp only [Option.getD_some] at this
    rw [this]
    exact hi2 k hk

lemma revExtended_evolves (L : Nat) (ds : List GlyphSpec) (a b c : LookupTreeEntry)
    (hab : RevExtended L ds a b) (hbc : RevEvolves L ds b c) : RevExtended L ds a c := by
  rcases hbc.2 with rfl | hext
  · exact hab
  · exact revExtended_trans L ds a b c hab hext

lemma revEvolves_extended (L : Nat) (ds : List GlyphSpec) (a b c : LookupTreeEntry)
    (hab : RevEvolves L ds a b) (hbc : RevExtended L ds b c) : RevExtended L ds a c := by
  rcases hab.2 with rfl | hext
  · exact hbc
  · exact revExtended_trans L ds a b c hext hbc

lemma revEvolves_refl (L : Nat) (ds : List GlyphSpec) (a : LookupTreeEntry) :
    RevEvolves L ds a a :=
  ⟨rfl, Or.inl rfl⟩

lemma revEvolves_trans (L : Nat) (ds : List GlyphSpec) (a b c : LookupTreeEntry)
    (hab : RevEvolves L ds a b) (hbc : RevEvolves L ds b c) : RevEvolves L ds a c := by
  refine ⟨hbc.1.trans hab.1, ?_⟩
  rcases hab.2 with rfl | hext
  · exact hbc.2
  · exact Or.inr (revExtended_evolves L ds a b c hext hbc)

lemma fwdExtended_mono (L L2 : Nat) (ds : List GlyphSpec) (a b : LookupTreeEntry)
    (hL : L ≤ L2) (h : FwdExtended L2 ds a b) : FwdExtended L ds a b := by
  obtain ⟨bp2, h1, h2, h3, h4⟩ := h
  exact ⟨bp2, h1, h2, h3, fun k hk => by
    obtain ⟨c, hc1, hc2⟩ := h4 k hk
    exact ⟨c, hc1, by omega⟩⟩

lemma fwdExtended_trans (L : Nat) (ds : List GlyphSpec) (a b c : LookupTreeEntry)
    (hab : FwdExtended L ds a b) (hbc : FwdExtended L ds b c) : FwdExtended L ds a c := by
  obtain ⟨bp2, hb, hr2, hi2, hk2⟩ := hab
  obtain ⟨bp3, hc, hr3, hi3, hk3⟩ := hbc
  refine ⟨bp3, hc, ?_, ?_, hk3⟩
  · obtain ⟨t1, ht1⟩ := hr2
    obtain ⟨t2, ht2⟩ := hr3
    rw [hb] at ht2
    exact ⟨t1 ++ t2, by rw [ht2]; simp only [Option.getD_some, ht1, List.append_assoc]⟩
  · intro k hk
    have := hi3 k hk
    rw [hb] at this
    simp only [Option.getD_some] at this
    rw [this]
    exact hi2 k hk

lemma fwdExtended_evolves (L : Nat) (ds : List GlyphSpec) (a b c : LookupTreeEntry)
    (hab : FwdExtended L ds a b) (hbc : FwdEvolves L ds b c) : FwdExtended L ds a c := by
  rcases hbc.2 with rfl | hext
  · exact hab
  · exact fwdExtended_trans L ds a b c hab hext

lemma fwdEvolves_extended (L : Nat) (ds : List GlyphSpec) (a b c : LookupTreeEntry)
    (hab : FwdEvolves L ds a b) (hbc : FwdExtended L ds b c) : FwdExtended L ds a c := by
  rcases hab.2 with rfl | hext
  · exact hbc
  · exact fwdExtended_trans L ds a b c hext hbc

lemma fwdEvolves_refl (L : Nat) (ds : List GlyphSpec) (a : LookupTreeEntry) :
    FwdEvolves L ds a a :=
  ⟨rfl, Or.inl rfl⟩

lemma fwdEvolves_trans (L : Nat) (ds : List GlyphSpec) (a b c : LookupTreeEntry)
    (hab : FwdEvolves L ds a b) (hbc : FwdEvolves L ds b c) : FwdEvolves L ds a c := by
  refine ⟨hbc.1.trans hab.1, ?_⟩
  rcases hab.2 with rfl | hext
  · exact hbc.2
  · exact Or.inr (fwdExtended_evolves L ds a b c hext hbc)

lemma contextGlyphFold_spec (ds : List GlyphSpec) :
    ∀ (bp : BranchPoint) (n : Nat) (subsList : List (Option Nat)),
    (contextGlyphFold bp n subsList ds).2.1 = List.replicate ds.length emptyEntry ∧
    ((contextGlyphFold bp n subsList ds).2.2.map (fun me => me.substitutions) =
      ds.map (fun _ => subsList)) ∧
    (∀ me ∈ (contextGlyphFold bp n subsList ds).2.2,
      n ≤ me.entry ∧ me.entry < n + ds.length) ∧
    (∃ tail, (contextGlyphFold bp n subsList ds).1.range = bp.range ++ tail) ∧
    (∀ k, GlyphSpec.single k ∉ ds →
      mapGet (contextGlyphFold bp n subsList ds).1.individual k = mapGet bp.individual k) ∧
    (∀ k, GlyphSpec.single k ∈ ds →
      ∃ c, mapGet (contextGlyphFold bp n subsList ds).1.individual k = some c ∧ n ≤ c) := by
  induction ds with
  | nil =>
    intro bp n subsList
    refine ⟨rfl, rfl, ?_, ⟨[], by simp [contextGlyphFold]⟩, fun k _ => rfl, ?_⟩
    · intro me hme
      simp [contextGlyphFold] at hme
    · intro k hk
      simp at hk
  | cons g gs ih =>
    intro bp n subsList
    cases g with
    | single k1 =>
      rcases hrec : contextGlyphFold { bp with individual := mapSet bp.individual k1 n }
        (n + 1) subsList gs with ⟨b, fresh, metas⟩
      have ihr := ih { bp with individual := mapSet bp.individual k1 n } (n + 1) subsList
      rw [hrec] at ihr
      obtain ⟨h1x, h2x, h3x, h4x, h5x, h6x⟩ := ihr
      have h1 : fresh = List.replicate gs.length emptyEntry := h1x
      have h2 : metas.map (fun me => me.substitutions) = gs.map (fun _ => subsList) := h2x
      have h3 : ∀ me ∈ metas, n + 1 ≤ me.entry ∧ me.entry < n + 1 + gs.length := h3x
      have h4 : ∃ tail, b.range = bp.range ++ tail := h4x
      have h5 : ∀ k, GlyphSpec.single k ∉ gs →
          mapGet b.individual k = mapGet (mapSet bp.individual k1 n) k := h5x
      have h6 : ∀ k, GlyphSpec.single k ∈ gs →
          ∃ c, mapGet b.individual k = some c ∧ n + 1 ≤ c := h6x
      simp only [contextGlyphFold, hrec]
      refine ⟨?_, ?_, ?_, ?_, ?_, ?_⟩
      · rw [List.length_cons, List.replicate_succ, h1]
      · simp only [List.map_cons, h2]
      · intro me hme
        rcases List.mem_cons.mp hme with rfl | hme2
        · simp only [List.length_cons]
          omega
        · have := h3 me hme2
          simp only [List.length_cons]
          omega
      · obtain ⟨t, ht⟩ := h4
        exact ⟨t, ht⟩
      · intro k hk
        have hk1 : k ≠ k1 := by
          intro hc
          exact hk (by rw [hc]; exact List.mem_cons_self _ _)
        have hkgs : GlyphSpec.single k ∉ gs := fun hc => hk (List.mem_cons_of_mem _ hc)
        rw [h5 k hkgs]
        exact mapGet_mapSet_ne bp.individual k1 n k hk1
      · intro k hk
        by_cases hgs : GlyphSpec.single k ∈ gs
        · obtain ⟨c, hc1, hc2⟩ := h6 k hgs
          exact ⟨c, hc1, by omega⟩
        · have hk1 : k = k1 := by
            rcases List.mem_cons.mp hk with h | h
            · injection h
            · exact absurd h hgs
          subst hk1
          refine ⟨n, ?_, Nat.le_refl n⟩
          rw [h5 k hgs]
          exact mapGet_mapSet bp.individual k n
    | range lo2 hi2 =>
      rcases hrec : contextGlyphFold { bp with range := bp.range ++ [((lo2, hi2), n)] }
        (n + 1) subsList gs with ⟨b, fresh, metas⟩
      have ihr := ih { bp with range := bp.range ++ [((lo2, hi2), n)] } (n + 1) subsList
      rw [hrec] at ihr
      obtain ⟨h1x, h2x, h3x, h4x, h5x, h6x⟩ := ihr
      have h1 : fresh = List.replicate gs.length emptyEntry := h1x
      have h2 : metas.map (fun me => me.substitutions) = gs.map (fun _ => subsList) := h2x
      have h3 : ∀ me ∈ metas, n + 1 ≤ me.entry ∧ me.entry < n + 1 + gs.length := h3x
      have h4 : ∃ tail, b.range = (bp.range ++ [((lo2, hi2), n)]) ++ tail := h4x
      have h5 : ∀ k, GlyphSpec.single k ∉ gs →
          mapGet b.individual k = mapGet bp.individual k := h5x
      have h6 : ∀ k, GlyphSpec.single k ∈ gs →
          ∃ c, mapGet b.individual k = some c ∧ n + 1 ≤ c := h6x
      simp only [contextGlyphFold, hrec]
      refine ⟨?_, ?_, ?_, ?_, ?_, ?_⟩
      · rw [List.length_cons, List.replicate_succ, h1]
      · simp only [List.map_cons, h2]
      · intro me hme
        rcases List.mem_cons.mp hme with rfl | hme2
        · simp only [List.length_cons]
          omega
        · have := h3 me hme2
          simp only [List.length_cons]
          omega
      · obtain ⟨t, ht⟩ := h4
        exact ⟨[((lo2, hi2), n)] ++ t, by rw [ht]; simp [List.append_assoc]⟩
      · intro k hk
        have hkgs : GlyphSpec.single k ∉ gs := fun hc => hk (List.mem_cons_of_mem _ hc)
        exact h5 k hkgs
      · intro k hk
        have hgs : GlyphSpec.single k ∈ gs := by
          rcases List.mem_cons.mp hk with h | h
          · cases h
          · exact h
        obtain ⟨c, hc1, hc2⟩ := h6 k hgs
        exact ⟨c, hc1, by omega⟩

lemma contextGlyphFold_metas_get (ds : List GlyphSpec) :
    ∀ (bp : BranchPoint) (n : Nat) (subsList : List (Option Nat)) (i : Nat), i < ds.length →
    (contextGlyphFold bp n subsList ds).2.2[i]? = some ⟨n + i, subsList⟩ := by
  induction ds with
  | nil =>
    intro bp n subsList i hi
    simp at hi
  | cons g gs ih =>
    intro bp n subsList i hi
    cases g with
    | single k1 =>
      rcases hrec : contextGlyphFold { bp with individual := mapSet bp.individual k1 n }
        (n + 1) subsList gs with ⟨b, fresh, metas⟩
      simp only [contextGlyphFold, hrec]
      cases i with
      | zero => simp
      | succ i2 =>
        simp only [List.getElem?_cons_succ]
        have hlt : i2 < gs.length := by
          simp only [List.length_cons] at hi
          omega
        have hm := ih { bp with individual := mapSet bp.individual k1 n } (n + 1) subsList i2 hlt
        rw [hrec] at hm
        have hm2 : metas[i2]? = some ⟨n + 1 + i2, subsList⟩ := hm
        rw [hm2]
        have harith : n + 1 + i2 = n + (i2 + 1) := by omega
        rw [harith]
    | range lo2 hi2 =>
      rcases hrec : contextGlyphFold { bp with range := bp.range ++ [((lo2, hi2), n)] }
        (n + 1) subsList gs with ⟨b, fresh, metas⟩
      simp only [contextGlyphFold, hrec]
      cases i with
      | zero => simp
      | succ i2 =>
        simp only [List.getElem?_cons_succ]
        have hlt : i2 < gs.length := by
          simp only [List.length_cons] at hi
          omega
        have hm := ih { bp with range := bp.range ++ [((lo2, hi2), n)] } (n + 1) subsList i2 hlt
        rw [hrec] at hm
        have hm2 : metas[i2]? = some ⟨n + 1 + i2, subsList⟩ := hm
        rw [hm2]
        have harith : n + 1 + i2 = n + (i2 + 1) := by omega
        rw [harith]

lemma contextGlyphFold_single_key (ds : List GlyphSpec) :
    ∀ (bp : BranchPoint) (n : Nat) (subsList : List (Option Nat)) (i k : Nat), ds.Nodup →
    ds[i]? = some (GlyphSpec.single k) →
    mapGet (contextGlyphFold bp n subsList ds).1.individual k = some (n + i) := by
  induction ds with
  | nil =>
    intro bp n subsList i k _ hik
    simp at hik
  | cons g gs ih =>
    intro bp n subsList i k hnd hik
    cases i with
    | zero =>
      rw [List.getElem?_cons_zero] at hik
      injection hik with hik
      subst hik
      have hnot : GlyphSpec.single k ∉ gs := (List.nodup_cons.mp hnd).1
      rcases hrec : contextGlyphFold { bp with individual := mapSet bp.individual k n }
        (n + 1) subsList gs with ⟨b, fresh, metas⟩
      have hoff := (contextGlyphFold_spec gs { bp with individual := mapSet bp.individual k n }
        (n + 1) subsList).2.2.2.2.1 k hnot
      rw [hrec] at hoff
      have hoff2 : mapGet b.individual k = mapGet (mapSet bp.individual k n) k := hoff
      simp only [contextGlyphFold, hrec]
      rw [hoff2, mapGet_mapSet]
      simp
    | succ i2 =>
      simp only [List.getElem?_cons_succ] at hik
      have hnd2 : gs.Nodup := (List.nodup_cons.mp hnd).2
      cases g with
      | single k1 =>
        rcases hrec : contextGlyphFold { bp with individual := mapSet bp.individual k1 n }
          (n + 1) subsList gs with ⟨b, fresh, metas⟩
        have hm := ih { bp with individual := mapSet bp.individual k1 n } (n + 1) subsList
          i2 k hnd2 hik
        rw [hrec] at hm
        have hm2 : mapGet b.individual k = some (n + 1 + i2) := hm
        simp only [contextGlyphFold, hrec]
        rw [hm2]
        have harith : n + 1 + i2 = n + (i2 + 1) := by omega
        rw [harith]
      | range lo2 hi2 =>
        rcases hrec : contextGlyphFold { bp with range := bp.range ++ [((lo2, hi2), n)] }
          (n + 1) subsList gs with ⟨b, fresh, metas⟩
        have hm := ih { bp with range := bp.range ++ [((lo2, hi2), n)] } (n + 1) subsList
          i2 k hnd2 hik
        rw [hrec] at hm
        have hm2 : mapGet b.individual k = some (n + 1 + i2) := hm
        simp only [contextGlyphFold, hrec]
        rw [hm2]
        have harith : n + 1 + i2 = n + (i2 + 1) := by omega
        rw [harith]

lemma contextGlyphFold_range_mem (ds : List GlyphSpec) (bp : BranchPoint) (n : Nat)
    (subsList : List (Option Nat)) (x : (Nat × Nat) × Nat) (hx : x ∈ bp.range) :
    x ∈ (contextGlyphFold bp n subsList ds).1.range := by
  obtain ⟨t, ht⟩ := (contextGlyphFold_spec ds bp n subsList).2.2.2.1
  rw [ht]
  exact List.mem_append_left t hx

lemma contextGlyphFold_range_key (ds : List GlyphSpec) :
    ∀ (bp : BranchPoint) (n : Nat) (subsList : List (Option Nat)) (i lo hi : Nat),
    ds[i]? = some (GlyphSpec.range lo hi) →
    ((lo, hi), n + i) ∈ (contextGlyphFold bp n subsList ds).1.range := by
  induction ds with
  | nil =>
    intro bp n subsList i lo hi hik
    simp at hik
  | cons g gs ih =>
    intro bp n subsList i lo hi hik
    cases i with
    | zero =>
      rw [List.getElem?_cons_zero] at hik
      injection hik with hik
      subst hik
      rcases hrec : contextGlyphFold { bp with range := bp.range ++ [((lo, hi), n)] }
        (n + 1) subsList gs with ⟨b, fresh, metas⟩
      have hmem := contextGlyphFold_range_mem gs
        { bp with range := bp.range ++ [((lo, hi), n)] } (n + 1) subsList ((lo, hi), n)
        (List.mem_append_right bp.range (List.mem_singleton.mpr rfl))
      rw [hrec] at hmem
      have hmem2 : ((lo, hi), n) ∈ b.range := hmem
      simp only [contextGlyphFold, hrec]
      exact hmem2
    | succ i2 =>
      simp only [List.getElem?_cons_succ] at hik
      cases g with
      | single k1 =>
        rcases hrec : contextGlyphFold { bp with individual := mapSet bp.individual k1 n }
          (n + 1) subsList gs with ⟨b, fresh, metas⟩
        have hm := ih { bp with individual := mapSet bp.individual k1 n } (n + 1) subsList
          i2 lo hi hik
        rw [hrec] at hm
        have hm2 : ((lo, hi), n + 1 + i2) ∈ b.range := hm
        simp only [contextGlyphFold, hrec]
        have harith : n + (i2 + 1) = n + 1 + i2 := by omega
        rw [harith]
        exact hm2
      | range lo2 hi2 =>
        rcases hrec : contextGlyphFold { bp with range := bp.range ++ [((lo2, hi2), n)] }
          (n + 1) subsList gs with ⟨b, fresh, metas⟩
        have hm := ih { bp with range := bp.range ++ [((lo2, hi2), n)] } (n + 1) subsList
          i2 lo hi hik
        rw [hrec] at hm
        have hm2 : ((lo, hi), n + 1 + i2) ∈ b.range := hm
        simp only [contextGlyphFold, hrec]
        have harith : n + (i2 + 1) = n + 1 + i2 := by omega
        rw [harith]
        exact hm2

lemma revEvolves_mono (L L2 : Nat) (ds : List GlyphSpec) (a b : LookupTreeEntry)
    (hL : L ≤ L2) (h : RevEvolves L2 ds a b) : RevEvolves L ds a b :=
  ⟨h.1, h.2.imp id (revExtended_mono L L2 ds a b hL)⟩

lemma fwdEvolves_mono (L L2 : Nat) (ds : List GlyphSpec) (a b : LookupTreeEntry)
    (hL : L ≤ L2) (h : FwdEvolves L2 ds a b) : FwdEvolves L ds a b :=
  ⟨h.1, h.2.imp id (fwdExtended_mono L L2 ds a b hL)⟩

lemma processBacktrackEntry_spec (st : Arena) (meta : EntryMeta) (glyphs : List GlyphSpec)
    (hme : meta.entry < st.length) :
    st.length ≤ (processBacktrackEntry st meta glyphs).1.length ∧
    (∀ i, i ≠ meta.entry →
      getNode (processBacktrackEntry st meta glyphs).1 i = getNode st i) ∧
    RevEvolves st.length (dedupGlyphs glyphs) (getNode st meta.entry)
      (getNode (processBacktrackEntry st meta glyphs).1 meta.entry) ∧
    (dedupGlyphs glyphs ≠ [] →
      RevExtended st.length (dedupGlyphs glyphs) (getNode st meta.entry)
        (getNode (processBacktrackEntry st meta glyphs).1 meta.entry)) ∧
    ((processBacktrackEntry st meta glyphs).2.map (fun me => me.substitutions) =
      (dedupGlyphs glyphs).map (fun _ => meta.substitutions)) ∧
    (∀ me ∈ (processBacktrackEntry st meta glyphs).2, st.length ≤ me.entry) ∧
    (∀ i, st.length ≤ i → getNode (processBacktrackEntry st meta glyphs).1 i = emptyEntry) := by
  by_cases hds : dedupGlyphs glyphs = []
  · have heq : processBacktrackEntry st meta glyphs = (st, []) := by
      simp only [processBacktrackEntry]
      rw [if_pos hds]
    rw [heq]
    refine ⟨Nat.le_refl _, fun i _ => rfl, revEvolves_refl _ _ _,
      fun hc => absurd hds hc, by rw [hds]; rfl, ?_, ?_⟩
    · intro me hme2
      simp at hme2
    · intro i hi
      exact getNode_of_length_le st i hi
  · rcases hF : contextGlyphFold ((getNode st meta.entry).reverse.getD emptyBP) st.length
      meta.substitutions (dedupGlyphs glyphs) with ⟨bp, fresh, metas⟩
    have spec := contextGlyphFold_spec (dedupGlyphs glyphs)
      ((getNode st meta.entry).reverse.getD emptyBP) st.length meta.substitutions
    rw [hF] at spec
    obtain ⟨s1x, s2x, s3x, s4x, s5x, s6x⟩ := spec
    have s1 : fresh = List.replicate (dedupGlyphs glyphs).length emptyEntry := s1x
    have s2 : metas.map (fun me => me.substitutions) =
      (dedupGlyphs glyphs).map (fun _ => meta.substitutions) := s2x
    have s3 : ∀ me ∈ metas, st.length ≤ me.entry ∧
      me.entry < st.length + (dedupGlyphs glyphs).length := s3x
    have s4 : ∃ tail, bp.range =
      ((getNode st meta.entry).reverse.getD emptyBP).range ++ tail := s4x
    have s5 : ∀ k, GlyphSpec.single k ∉ dedupGlyphs glyphs →
      mapGet bp.individual k =
        mapGet ((getNode st meta.entry).reverse.getD emptyBP).individual k := s5x
    have s6 : ∀ k, GlyphSpec.single k ∈ dedupGlyphs glyphs →
      ∃ c, mapGet bp.individual k = some c ∧ st.length ≤ c := s6x
    have hfreshempty : ∀ e ∈ fresh, e = emptyEntry := by
      intro e he
      rw [s1] at he
      exact List.eq_of_mem_replicate he
    simp only [processBacktrackEntry, if_neg hds, hF]
    have hset : getNode ((st ++ fresh).set meta.entry
        { getNode st meta.entry with reverse := some bp }) meta.entry =
        { getNode st meta.entry with reverse := some bp } :=
      getNode_set_self _ _ _ (by rw [List.length_append]; omega)
    have hext : RevExtended st.length (dedupGlyphs glyphs) (getNode st meta.entry)
        { getNode st meta.entry with reverse := some bp } :=
      ⟨bp, rfl, s4, s5, s6⟩
    refine ⟨?_, ?_, ?_, ?_, s2, ?_, ?_⟩
    · rw [List.length_set, List.length_append]
      omega
    · intro i hi
      rw [getNode_set_ne _ _ _ _ (fun hc => hi hc.symm)]
      exact getNode_append_all st fresh hfreshempty i
    · rw [hset]
      exact ⟨rfl, Or.inr hext⟩
    · intro _
      rw [hset]
      exact hext
    · intro me hme2
      exact (s3 me hme2).1
    · intro i hi
      rw [getNode_set_ne _ _ _ _ (by omega)]
      exact getNode_append_ge st fresh hfreshempty i hi

lemma processLookaheadEntry_spec (st : Arena) (meta : EntryMeta) (glyphs : List GlyphSpec)
    (hme : meta.entry < st.length) :
    st.length ≤ (processLookaheadEntry st meta glyphs).1.length ∧
    (∀ i, i ≠ meta.entry →
      getNode (processLookaheadEntry st meta glyphs).1 i = getNode st i) ∧
    FwdEvolves st.length (dedupGlyphs glyphs) (getNode st meta.entry)
      (getNode (processLookaheadEntry st meta glyphs).1 meta.entry) ∧
    (dedupGlyphs glyphs ≠ [] →
      FwdExtended st.length (dedupGlyphs glyphs) (getNode st meta.entry)
        (getNode (processLookaheadEntry st meta glyphs).1 meta.entry)) ∧
    ((processLookaheadEntry st meta glyphs).2.map (fun me => me.substitutions) =
      (dedupGlyphs glyphs).map (fun _ => meta.substitutions)) ∧
    (∀ me ∈ (processLookaheadEntry st meta glyphs).2, st.length ≤ me.entry) ∧
    (∀ i, st.length ≤ i → getNode (processLookaheadEntry st meta glyphs).1 i = emptyEntry) := by
  by_cases hds : dedupGlyphs glyphs = []
  · have heq : processLookaheadEntry st meta glyphs = (st, []) := by
      simp only [processLookaheadEntry]
      rw [if_pos hds]
    rw [heq]
    refine ⟨Nat.le_refl _, fun i _ => rfl, fwdEvolves_refl _ _ _,
      fun hc => absurd hds hc, by rw [hds]; rfl, ?_, ?_⟩
    · intro me hme2
      simp at hme2
    · intro i hi
      exact getNode_of_length_le st i hi
  · rcases hF : contextGlyphFold ((getNode st meta.entry).forward.getD emptyBP) st.length
      meta.substitutions (dedupGlyphs glyphs) with ⟨bp, fresh, metas⟩
    have spec := contextGlyphFold_spec (dedupGlyphs glyphs)
      ((getNode st meta.entry).forward.getD emptyBP) st.length meta.substitutions
    rw [hF] at spec
    obtain ⟨s1x, s2x, s3x, s4x, s5x, s6x⟩ := spec
    have s1 : fresh = List.replicate (dedupGlyphs glyphs).length emptyEntry := s1x
    have s2 : metas.map (fun me => me.substitutions) =
      (dedupGlyphs glyphs).map (fun _ => meta.substitutions) := s2x
    have s3 : ∀ me ∈ metas, st.length ≤ me.entry ∧
      me.entry < st.length + (dedupGlyphs glyphs).length := s3x
    have s4 : ∃ tail, bp.range =
      ((getNode st meta.entry).forward.getD emptyBP).range ++ tail := s4x
    have s5 : ∀ k, GlyphSpec.single k ∉ dedupGlyphs glyphs →
      mapGet bp.individual k =
        mapGet ((getNode st meta.entry).forward.getD emptyBP).individual k := s5x
    have s6 : ∀ k, GlyphSpec.single k ∈ dedupGlyphs glyphs →
      ∃ c, mapGet bp.individual k = some c ∧ st.length ≤ c := s6x
    have hfreshempty : ∀ e ∈ fresh, e = emptyEntry := by
      intro e he
      rw [s1] at he
      exact List.eq_of_mem_replicate he
    simp only [processLookaheadEntry, if_neg hds, hF]
    have hset : getNode ((st ++ fresh).set meta.entry
        { getNode st meta.entry with forward := some bp }) meta.entry =
        { getNode st meta.entry with forward := some bp } :=
      getNode_set_self _ _ _ (by rw [List.length_append]; omega)
    have hext : FwdExtended st.length (dedupGlyphs glyphs) (getNode st meta.entry)
        { getNode st meta.entry with forward := some bp } :=
      ⟨bp, rfl, s4, s5, s6⟩
    refine ⟨?_, ?_, ?_, ?_, s2, ?_, ?_⟩
    · rw [List.length_set, List.length_append]
      omega
    · intro i hi
      rw [getNode_set_ne _ _ _ _ (fun hc => hi hc.symm)]
      exact getNode_append_all st fresh hfreshempty i
    · rw [hset]
      exact ⟨rfl, Or.inr hext⟩
    · intro _
      rw [hset]
      exact hext
    · intro me hme2
      exact (s3 me hme2).1
    · intro i hi
      rw [getNode_set_ne _ _ _ _ (by omega)]
      exact getNode_append_ge st fresh hfreshempty i hi

lemma processBacktrackEntry_links (st : Arena) (meta : EntryMeta) (glyphs : List GlyphSpec)
    (hme : meta.entry < st.length) :
    (∀ k, GlyphSpec.single k ∈ dedupGlyphs glyphs →
      ∃ me ∈ (processBacktrackEntry st meta glyphs).2, ∃ bp2,
        (getNode (processBacktrackEntry st meta glyphs).1 meta.entry).reverse = some bp2 ∧
        mapGet bp2.individual k = some me.entry) ∧
    (∀ lo hi, GlyphSpec.range lo hi ∈ dedupGlyphs glyphs →
      ∃ me ∈ (processBacktrackEntry st meta glyphs).2, ∃ bp2,
        (getNode (processBacktrackEntry st meta glyphs).1 meta.entry).reverse = some bp2 ∧
        ((lo, hi), me.entry) ∈ bp2.range) := by
  by_cases hds : dedupGlyphs glyphs = []
  · constructor
    · intro k hk
      rw [hds] at hk
      simp at hk
    · intro lo hi hk
      rw [hds] at hk
      simp at hk
  · rcases hF : contextGlyphFold ((getNode st meta.entry).reverse.getD emptyBP) st.length
      meta.substitutions (dedupGlyphs glyphs) with ⟨bp, fresh, metas⟩
    simp only [processBacktrackEntry, if_neg hds, hF]
    have hset : getNode ((st ++ fresh).set meta.entry
        { getNode st meta.entry with reverse := some bp }) meta.entry =
        { getNode st meta.entry with reverse := some bp } := by
      apply getNode_set_self
      rw [List.length_append]
      omega
    constructor
    · intro k hk
      obtain ⟨i, hilt, hig⟩ := List.getElem_of_mem hk
      have hgq : (dedupGlyphs glyphs)[i]? = some (GlyphSpec.single k) := by
        rw [List.getElem?_eq_getElem hilt, hig]
      have hkey := contextGlyphFold_single_key (dedupGlyphs glyphs)
        ((getNode st meta.entry).reverse.getD emptyBP) st.length meta.substitutions i k
        (dedupGlyphs_nodup glyphs) hgq
      rw [hF] at hkey
      have hkey2 : mapGet bp.individual k = some (st.length + i) := hkey
      have hmet := contextGlyphFold_metas_get (dedupGlyphs glyphs)
        ((getNode st meta.entry).reverse.getD emptyBP) st.length meta.substitutions i hilt
      rw [hF] at hmet
      have hmet2 : metas[i]? = some ⟨st.length + i, meta.substitutions⟩ := hmet
      refine ⟨⟨st.length + i, meta.substitutions⟩, List.getElem?_mem hmet2, bp, ?_, hkey2⟩
      rw [hset]
    · intro lo hi hk
      obtain ⟨i, hilt, hig⟩ := List.getElem_of_mem hk
      have hgq : (dedupGlyphs glyphs)[i]? = some (GlyphSpec.range lo hi) := by
        rw [List.getElem?_eq_getElem hilt, hig]
      have hkey := contextGlyphFold_range_key (dedupGlyphs glyphs)
        ((getNode st meta.entry).reverse.getD emptyBP) st.length meta.substitutions i lo hi hgq
      rw [hF] at hkey
      have hkey2 : ((lo, hi), st.length + i) ∈ bp.range := hkey
      have hmet := contextGlyphFold_metas_get (dedupGlyphs glyphs)
        ((getNode st meta.entry).reverse.getD emptyBP) st.length meta.substitutions i hilt
      rw [hF] at hmet
      have hmet2 : metas[i]? = some ⟨st.length + i, meta.substitutions⟩ := hmet
      refine ⟨⟨st.length + i, meta.substitutions⟩, List.getElem?_mem hmet2, bp, ?_, hkey2⟩
      rw [hset]

lemma processLookaheadEntry_links (st : Arena) (meta : EntryMeta) (glyphs : List GlyphSpec)
    (hme : meta.entry < st.length) :
    (∀ k, GlyphSpec.single k ∈ dedupGlyphs glyphs →
      ∃ me ∈ (processLookaheadEntry st meta glyphs).2, ∃ bp2,
        (getNode (processLookaheadEntry st meta glyphs).1 meta.entry).forward = some bp2 ∧
        mapGet bp2.individual k = some me.entry) ∧
    (∀ lo hi, GlyphSpec.range lo hi ∈ dedupGlyphs glyphs →
      ∃ me ∈ (processLookaheadEntry st meta glyphs).2, ∃ bp2,
        (getNode (processLookaheadEntry st meta glyphs).1 meta.entry).forward = some bp2 ∧
        ((lo, hi), me.entry) ∈ bp2.range) := by
  by_cases hds : dedupGlyphs glyphs = []
  · constructor
    · intro k hk
      rw [hds] at hk
      simp at hk
    · intro lo hi hk
      rw [hds] at hk
      simp at hk
  · rcases hF : contextGlyphFold ((getNode st meta.entry).forward.getD emptyBP) st.length
      meta.substitutions (dedupGlyphs glyphs) with ⟨bp, fresh, metas⟩
    simp only [processLookaheadEntry, if_neg hds, hF]
    have hset : getNode ((st ++ fresh).set meta.entry
        { getNode st meta.entry with forward := some bp }) meta.entry =
        { getNode st meta.entry with forward := some bp } := by
      apply getNode_set_self
      rw [List.length_append]
      omega
    constructor
    · intro k hk
      obtain ⟨i, hilt, hig⟩ := List.getElem_of_mem hk
      have hgq : (dedupGlyphs glyphs)[i]? = some (GlyphSpec.single k) := by
        rw [List.getElem?_eq_getElem hilt, hig]
      have hkey := contextGlyphFold_single_key (dedupGlyphs glyphs)
        ((getNode st meta.entry).forward.getD emptyBP) st.length meta.substitutions i k
        (dedupGlyphs_nodup glyphs) hgq
      rw [hF] at hkey
      have hkey2 : mapGet bp.individual k = some (st.length + i) := hkey
      have hmet := contextGlyphFold_metas_get (dedupGlyphs glyphs)
        ((getNode st meta.entry).forward.getD emptyBP) st.length meta.substitutions i hilt
      rw [hF] at hmet
      have hmet2 : metas[i]? = some ⟨st.length + i, meta.substitutions⟩ := hmet
      refine ⟨⟨st.length + i, meta.substitutions⟩, List.getElem?_mem hmet2, bp, ?_, hkey2⟩
      rw [hset]
    · intro lo hi hk
      obtain ⟨i, hilt, hig⟩ := List.getElem_of_mem hk
      have hgq : (dedupGlyphs glyphs)[i]? = some (GlyphSpec.range lo hi) := by
        rw [List.getElem?_eq_getElem hilt, hig]
      have hkey := contextGlyphFold_range_key (dedupGlyphs glyphs)
        ((getNode st meta.entry).forward.getD emptyBP) st.length meta.substitutions i lo hi hgq
      rw [hF] at hkey
      have hkey2 : ((lo, hi), st.length + i) ∈ bp.range := hkey
      have hmet := contextGlyphFold_metas_get (dedupGlyphs glyphs)
        ((getNode st meta.entry).forward.getD emptyBP) st.length meta.substitutions i hilt
      rw [hF] at hmet
      have hmet2 : metas[i]? = some ⟨st.length + i, meta.substitutions⟩ := hmet
      refine ⟨⟨st.length + i, meta.substitutions⟩, List.getElem?_mem hmet2, bp, ?_, hkey2⟩
      rw [hset]

lemma processBacktrackPosition_spec (glyphs : List GlyphSpec) (entries : List EntryMeta) :
    ∀ (st : Arena) (L : Nat), L ≤ st.length → (∀ m ∈ entries, m.entry < L) →
    st.length ≤ (processBacktrackPosition glyphs entries st).1.length ∧
    ((processBacktrackPosition glyphs entries st).2.map (fun me => me.substitutions) =
      entries.flatMap (fun m => (dedupGlyphs glyphs).map (fun _ => m.substitutions))) ∧
    (∀ i, L ≤ i → getNode st i = emptyEntry →
      getNode (processBacktrackPosition glyphs entries st).1 i = emptyEntry) ∧
    (∀ me ∈ (processBacktrackPosition glyphs entries st).2, st.length ≤ me.entry ∧
      getNode (processBacktrackPosition glyphs entries st).1 me.entry = emptyEntry) ∧
    (∀ i, RevEvolves L (dedupGlyphs glyphs) (getNode st i)
      (getNode (processBacktrackPosition glyphs entries st).1 i)) ∧
    (∀ m ∈ entries, dedupGlyphs glyphs ≠ [] →
      RevExtended L (dedupGlyphs glyphs) (getNode st m.entry)
        (getNode (processBacktrackPosition glyphs entries st).1 m.entry)) := by
  induction entries with
  | nil =>
    intro st L hL hv
    refine ⟨Nat.le_refl _, rfl, fun i _ h => h, ?_, fun i => revEvolves_refl _ _ _, ?_⟩
    · intro me hme
      simp [processBacktrackPosition] at hme
    · intro m hm
      simp at hm
  | cons m ms ih =>
    intro st L hL hv
    have hm : m.entry < L := hv m (List.mem_cons_self m ms)
    have hme : m.entry < st.length := by omega
    have E := processBacktrackEntry_spec st m glyphs hme
    rcases hstep : processBacktrackEntry st m glyphs with ⟨st1, res1⟩
    rw [hstep] at E
    obtain ⟨e1x, e2x, e3x, e4x, e5x, e6x, e7x⟩ := E
    have e1 : st.length ≤ st1.length := e1x
    have e2 : ∀ i, i ≠ m.entry → getNode st1 i = getNode st i := e2x
    have e3 : RevEvolves st.length (dedupGlyphs glyphs) (getNode st m.entry)
      (getNode st1 m.entry) := e3x
    have e4 : dedupGlyphs glyphs ≠ [] → RevExtended st.length (dedupGlyphs glyphs)
      (getNode st m.entry) (getNode st1 m.entry) := e4x
    have e5 : res1.map (fun me => me.substitutions) =
      (dedupGlyphs glyphs).map (fun _ => m.substitutions) := e5x
    have e6 : ∀ me ∈ res1, st.length ≤ me.entry := e6x
    have e7 : ∀ i, st.length ≤ i → getNode st1 i = emptyEntry := e7x
    have IH := ih st1 L (by omega) (fun m2 hm2 => hv m2 (List.mem_cons_of_mem m hm2))
    rcases hrest : processBacktrackPosition glyphs ms st1 with ⟨st2, res2⟩
    rw [hrest] at IH
    obtain ⟨i1x, i2x, i3x, i4x, i5x, i6x⟩ := IH
    have i1 : st1.length ≤ st2.length := i1x
    have i2 : res2.map (fun me => me.substitutions) =
      ms.flatMap (fun m2 => (dedupGlyphs glyphs).map (fun _ => m2.substitutions)) := i2x
    have i3 : ∀ i, L ≤ i → getNode st1 i = emptyEntry → getNode st2 i = emptyEntry := i3x
    have i4 : ∀ me ∈ res2, st1.length ≤ me.entry ∧ getNode st2 me.entry = emptyEntry := i4x
    have i5 : ∀ i, RevEvolves L (dedupGlyphs glyphs) (getNode st1 i) (getNode st2 i) := i5x
    have i6 : ∀ m2 ∈ ms, dedupGlyphs glyphs ≠ [] → RevExtended L (dedupGlyphs glyphs)
      (getNode st1 m2.entry) (getNode st2 m2.entry) := i6x
    have stepR : ∀ i, RevEvolves L (dedupGlyphs glyphs) (getNode st i) (getNode st1 i) := by
      intro i
      by_cases hi : i = m.entry
      · subst hi
        exact revEvolves_mono L st.length _ _ _ hL e3
      · rw [e2 i hi]
        exact revEvolves_refl _ _ _
    simp only [processBacktrackPosition, hstep, hrest]
    refine ⟨by omega, ?_, ?_, ?_, ?_, ?_⟩
    · rw [List.map_append, e5, i2, List.flatMap_cons]
    · intro i hi hempty
      refine i3 i hi ?_
      rw [e2 i (by omega)]
      exact hempty
    · intro me hmem
      rcases List.mem_append.mp hmem with hmem1 | hmem2
      · have h1 := e6 me hmem1
        exact ⟨h1, i3 me.entry (by omega) (e7 me.entry h1)⟩
      · have h2 := i4 me hmem2
        exact ⟨by omega, h2.2⟩
    · intro i
      exact revEvolves_trans L _ _ _ _ (stepR i) (i5 i)
    · intro m2 hm2 hds
      rcases List.mem_cons.mp hm2 with rfl | hm2t
      · exact revExtended_evolves L _ _ _ _
          (revExtended_mono L st.length _ _ _ hL (e4 hds)) (i5 m2.entry)
      · exact revEvolves_extended L _ _ _ _ (stepR m2.entry) (i6 m2 hm2t hds)

lemma processLookaheadPosition_spec (glyphs : List GlyphSpec) (entries : List EntryMeta) :
    ∀ (st : Arena) (L : Nat), L ≤ st.length → (∀ m ∈ entries, m.entry < L) →
    st.length ≤ (processLookaheadPosition glyphs entries st).1.length ∧
    ((processLookaheadPosition glyphs entries st).2.map (fun me => me.substitutions) =
      entries.flatMap (fun m => (dedupGlyphs glyphs).map (fun _ => m.substitutions))) ∧
    (∀ i, L ≤ i → getNode st i = emptyEntry →
      getNode (processLookaheadPosition glyphs entries st).1 i = emptyEntry) ∧
    (∀ me ∈ (processLookaheadPosition glyphs entries st).2, st.length ≤ me.entry ∧
      getNode (processLookaheadPosition glyphs entries st).1 me.entry = emptyEntry) ∧
    (∀ i, FwdEvolves L (dedupGlyphs glyphs) (getNode st i)
      (getNode (processLookaheadPosition glyphs entries st).1 i)) ∧
    (∀ m ∈ entries, dedupGlyphs glyphs ≠ [] →
      FwdExtended L (dedupGlyphs glyphs) (getNode st m.entry)
        (getNode (processLookaheadPosition glyphs entries st).1 m.entry)) := by
  induction entries with
  | nil =>
    intro st L hL hv
    refine ⟨Nat.le_refl _, rfl, fun i _ h => h, ?_, fun i => fwdEvolves_refl _ _ _, ?_⟩
    · intro me hme
      simp [processLookaheadPosition] at hme
    · intro m hm
      simp at hm
  | cons m ms ih =>
    intro st L hL hv
    have hm : m.entry < L := hv m (List.mem_cons_self m ms)
    have hme : m.entry < st.length := by omega
    have E := processLookaheadEntry_spec st m glyphs hme
    rcases hstep : processLookaheadEntry st m glyphs with ⟨st1, res1⟩
    rw [hstep] at E
    obtain ⟨e1x, e2x, e3x, e4x, e5x, e6x, e7x⟩ := E
    have e1 : st.length ≤ st1.length := e1x
    have e2 : ∀ i, i ≠ m.entry → getNode st1 i = getNode st i := e2x
    have e3 : FwdEvolves st.length (dedupGlyphs glyphs) (getNode st m.entry)
      (getNode st1 m.entry) := e3x
    have e4 : dedupGlyphs glyphs ≠ [] → FwdExtended st.length (dedupGlyphs glyphs)
      (getNode st m.entry) (getNode st1 m.entry) := e4x
    have e5 : res1.map (fun me => me.substitutions) =
      (dedupGlyphs glyphs).map (fun _ => m.substitutions) := e5x
    have e6 : ∀ me ∈ res1, st.length ≤ me.entry := e6x
    have e7 : ∀ i, st.length ≤ i → getNode st1 i = emptyEntry := e7x
    have IH := ih st1 L (by omega) (fun m2 hm2 => hv m2 (List.mem_cons_of_mem m hm2))
    rcases hrest : processLookaheadPosition glyphs ms st1 with ⟨st2, res2⟩
    rw [hrest] at IH
    obtain ⟨i1x, i2x, i3x, i4x, i5x, i6x⟩ := IH
    have i1 : st1.length ≤ st2.length := i1x
    have i2 : res2.map (fun me => me.substitutions) =
      ms.flatMap (fun m2 => (dedupGlyphs glyphs).map (fun _ => m2.substitutions)) := i2x
    have i3 : ∀ i, L ≤ i → getNode st1 i = emptyEntry → getNode st2 i = emptyEntry := i3x
    have i4 : ∀ me ∈ res2, st1.length ≤ me.entry ∧ getNode st2 me.entry = emptyEntry := i4x
    have i5 : ∀ i, FwdEvolves L (dedupGlyphs glyphs) (getNode st1 i) (getNode st2 i) := i5x
    have i6 : ∀ m2 ∈ ms, dedupGlyphs glyphs ≠ [] → FwdExtended L (dedupGlyphs glyphs)
      (getNode st1 m2.entry) (getNode st2 m2.entry) := i6x
    have stepR : ∀ i, FwdEvolves L (dedupGlyphs glyphs) (getNode st i) (getNode st1 i) := by
      intro i
      by_cases hi : i = m.entry
      · subst hi
        exact fwdEvolves_mono L st.length _ _ _ hL e3
      · rw [e2 i hi]
        exact fwdEvolves_refl _ _ _
    simp only [processLookaheadPosition, hstep, hrest]
    refine ⟨by omega, ?_, ?_, ?_, ?_, ?_⟩
    · rw [List.map_append, e5, i2, List.flatMap_cons]
    · intro i hi hempty
      refine i3 i hi ?_
      rw [e2 i (by omega)]
      exact hempty
    · intro me hmem
      rcases List.mem_append.mp hmem with hmem1 | hmem2
      · have h1 := e6 me hmem1
        exact ⟨h1, i3 me.entry (by omega) (e7 me.entry h1)⟩
      · have h2 := i4 me hmem2
        exact ⟨by omega, h2.2⟩
    · intro i
      exact fwdEvolves_trans L _ _ _ _ (stepR i) (i5 i)
    · intro m2 hm2 hds
      rcases List.mem_cons.mp hm2 with rfl | hm2t
      · exact fwdExtended_evolves L _ _ _ _
          (fwdExtended_mono L st.length _ _ _ hL (e4 hds)) (i5 m2.entry)
      · exact fwdEvolves_extended L _ _ _ _ (stepR m2.entry) (i6 m2 hm2t hds)

lemma processBacktrackPosition_links (glyphs : List GlyphSpec) (entries : List EntryMeta) :
    ∀ st : Arena, (∀ m ∈ entries, m.entry < st.length) →
    (∀ j, (∀ m ∈ entries, m.entry ≠ j) →
      getNode (processBacktrackPosition glyphs entries st).1 j = getNode st j) ∧
    (∀ m ∈ entries, ∀ k, GlyphSpec.single k ∈ dedupGlyphs glyphs →
      ∃ me ∈ (processBacktrackPosition glyphs entries st).2, ∃ bp2,
        (getNode (processBacktrackPosition glyphs entries st).1 m.entry).reverse = some bp2 ∧
        mapGet bp2.individual k = some me.entry) ∧
    (∀ m ∈ entries, ∀ lo hi, GlyphSpec.range lo hi ∈ dedupGlyphs glyphs →
      ∃ me ∈ (processBacktrackPosition glyphs entries st).2, ∃ bp2,
        (getNode (processBacktrackPosition glyphs entries st).1 m.entry).reverse = some bp2 ∧
        ((lo, hi), me.entry) ∈ bp2.range) := by
  induction entries with
  | nil =>
    intro st hv
    refine ⟨fun j _ => rfl, ?_, ?_⟩
    · intro m hm
      simp at hm
    · intro m hm
      simp at hm
  | cons m ms ih =>
    intro st hv
    have hme : m.entry < st.length := hv m (List.mem_cons_self m ms)
    have E := processBacktrackEntry_spec st m glyphs hme
    have EL := processBacktrackEntry_links st m glyphs hme
    rcases hstep : processBacktrackEntry st m glyphs with ⟨st1, res1⟩
    rw [hstep] at E EL
    obtain ⟨e1x, e2x, -, -, -, -, -⟩ := E
    have e1 : st.length ≤ st1.length := e1x
    have e2 : ∀ i, i ≠ m.entry → getNode st1 i = getNode st i := e2x
    have IH := ih st1 (fun m2 hm2 => by
      have := hv m2 (List.mem_cons_of_mem m hm2)
      omega)
    rcases hrest : processBacktrackPosition glyphs ms st1 with ⟨st2, res2⟩
    rw [hrest] at IH
    obtain ⟨i1x, i2x, i3x⟩ := IH
    have i1 : ∀ j, (∀ m2 ∈ ms, m2.entry ≠ j) → getNode st2 j = getNode st1 j := i1x
    have i2 : ∀ m2 ∈ ms, ∀ k, GlyphSpec.single k ∈ dedupGlyphs glyphs →
        ∃ me ∈ res2, ∃ bp2, (getNode st2 m2.entry).reverse = some bp2 ∧
          mapGet bp2.individual k = some me.entry := i2x
    have i3 : ∀ m2 ∈ ms, ∀ lo hi, GlyphSpec.range lo hi ∈ dedupGlyphs glyphs →
        ∃ me ∈ res2, ∃ bp2, (getNode st2 m2.entry).reverse = some bp2 ∧
          ((lo, hi), me.entry) ∈ bp2.range := i3x
    obtain ⟨el1x, el2x⟩ := EL
    have el1 : ∀ k, GlyphSpec.single k ∈ dedupGlyphs glyphs →
        ∃ me ∈ res1, ∃ bp2, (getNode st1 m.entry).reverse = some bp2 ∧
          mapGet bp2.individual k = some me.entry := el1x
    have el2 : ∀ lo hi, GlyphSpec.range lo hi ∈ dedupGlyphs glyphs →
        ∃ me ∈ res1, ∃ bp2, (getNode st1 m.entry).reverse = some bp2 ∧
          ((lo, hi), me.entry) ∈ bp2.range := el2x
    simp only [processBacktrackPosition, hstep, hrest]
    refine ⟨?_, ?_, ?_⟩
    · intro j hj
      rw [i1 j (fun m2 hm2 => hj m2 (List.mem_cons_of_mem m hm2)),
        e2 j (Ne.symm (hj m (List.mem_cons_self m ms)))]
    · intro m2 hm2 k hk
      rcases List.mem_cons.mp hm2 with rfl | hm2t
      · by_cases hrep : ∃ m3 ∈ ms, m3.entry = m2.entry
        · obtain ⟨m3, hm3, he3⟩ := hrep
          obtain ⟨me, hmem, bp2, hbp, hmap⟩ := i2 m3 hm3 k hk
          rw [he3] at hbp
          exact ⟨me, List.mem_append_right res1 hmem, bp2, hbp, hmap⟩
        · obtain ⟨me, hmem, bp2, hbp, hmap⟩ := el1 k hk
          have hfr : getNode st2 m2.entry = getNode st1 m2.entry :=
            i1 m2.entry (fun m3 hm3 hc => hrep ⟨m3, hm3, hc⟩)
          refine ⟨me, List.mem_append_left res2 hmem, bp2, ?_, hmap⟩
          rw [hfr]
          exact hbp
      · obtain ⟨me, hmem, bp2, hbp, hmap⟩ := i2 m2 hm2t k hk
        exact ⟨me, List.mem_append_right res1 hmem, bp2, hbp, hmap⟩
    · intro m2 hm2 lo hi hk
      rcases List.mem_cons.mp hm2 with rfl | hm2t
      · by_cases hrep : ∃ m3 ∈ ms, m3.entry = m2.entry
        · obtain ⟨m3, hm3, he3⟩ := hrep
          obtain ⟨me, hmem, bp2, hbp, hmap⟩ := i3 m3 hm3 lo hi hk
          rw [he3] at hbp
          exact ⟨me, List.mem_append_right res1 hmem, bp2, hbp, hmap⟩
        · obtain ⟨me, hmem, bp2, hbp, hmap⟩ := el2 lo hi hk
          have hfr : getNode st2 m2.entry = getNode st1 m2.entry :=
            i1 m2.entry (fun m3 hm3 hc => hrep ⟨m3, hm3, hc⟩)
          refine ⟨me, List.mem_append_left res2 hmem, bp2, ?_, hmap⟩
          rw [hfr]
          exact hbp
      · obtain ⟨me, hmem, bp2, hbp, hmap⟩ := i3 m2 hm2t lo hi hk
        exact ⟨me, List.mem_append_right res1 hmem, bp2, hbp, hmap⟩

lemma processLookaheadPosition_links (glyphs : List GlyphSpec) (entries : List EntryMeta) :
    ∀ st : Arena, (∀ m ∈ entries, m.entry < st.length) →
    (∀ j, (∀ m ∈ entries, m.entry ≠ j) →
      getNode (processLookaheadPosition glyphs entries st).1 j = getNode st j) ∧
    (∀ m ∈ entries, ∀ k, GlyphSpec.single k ∈ dedupGlyphs glyphs →
      ∃ me ∈ (processLookaheadPosition glyphs entries st).2, ∃ bp2,
        (getNode (processLookaheadPosition glyphs entries st).1 m.entry).forward = some bp2 ∧
        mapGet bp2.individual k = some me.entry) ∧
    (∀ m ∈ entries, ∀ lo hi, GlyphSpec.range lo hi ∈ dedupGlyphs glyphs →
      ∃ me ∈ (processLookaheadPosition glyphs entries st).2, ∃ bp2,
        (getNode (processLookaheadPosition glyphs entries st).1 m.entry).forward = some bp2 ∧
        ((lo, hi), me.entry) ∈ bp2.range) := by
  induction entries with
  | nil =>
    intro st hv
    refine ⟨fun j _ => rfl, ?_, ?_⟩
    · intro m hm
      simp at hm
    · intro m hm
      simp at hm
  | cons m ms ih =>
    intro st hv
    have hme : m.entry < st.length := hv m (List.mem_cons_self m ms)
    have E := processLookaheadEntry_spec st m glyphs hme
    have EL := processLookaheadEntry_links st m glyphs hme
    rcases hstep : processLookaheadEntry st m glyphs with ⟨st1, res1⟩
    rw [hstep] at E EL
    obtain ⟨e1x, e2x, -, -, -, -, -⟩ := E
    have e1 : st.length ≤ st1.length := e1x
    have e2 : ∀ i, i ≠ m.entry → getNode st1 i = getNode st i := e2x
    have IH := ih st1 (fun m2 hm2 => by
      have := hv m2 (List.mem_cons_of_mem m hm2)
      omega)
    rcases hrest : processLookaheadPosition glyphs ms st1 with ⟨st2, res2⟩
    rw [hrest] at IH
    obtain ⟨i1x, i2x, i3x⟩ := IH
    have i1 : ∀ j, (∀ m2 ∈ ms, m2.entry ≠ j) → getNode st2 j = getNode st1 j := i1x
    have i2 : ∀ m2 ∈ ms, ∀ k, GlyphSpec.single k ∈ dedupGlyphs glyphs →
        ∃ me ∈ res2, ∃ bp2, (getNode st2 m2.entry).forward = some bp2 ∧
          mapGet bp2.individual k = some me.entry := i2x
    have i3 : ∀ m2 ∈ ms, ∀ lo hi, GlyphSpec.range lo hi ∈ dedupGlyphs glyphs →
        ∃ me ∈ res2, ∃ bp2, (getNode st2 m2.entry).forward = some bp2 ∧
          ((lo, hi), me.entry) ∈ bp2.range := i3x
    obtain ⟨el1x, el2x⟩ := EL
    have el1 : ∀ k, GlyphSpec.single k ∈ dedupGlyphs glyphs →
        ∃ me ∈ res1, ∃ bp2, (getNode st1 m.entry).forward = some bp2 ∧
          mapGet bp2.individual k = some me.entry := el1x
    have el2 : ∀ lo hi, GlyphSpec.range lo hi ∈ dedupGlyphs glyphs →
        ∃ me ∈ res1, ∃ bp2, (getNode st1 m.entry).forward = some bp2 ∧
          ((lo, hi), me.entry) ∈ bp2.range := el2x
    simp only [processLookaheadPosition, hstep, hrest]
    refine ⟨?_, ?_, ?_⟩
    · intro j hj
      rw [i1 j (fun m2 hm2 => hj m2 (List.mem_cons_of_mem m hm2)),
        e2 j (Ne.symm (hj m (List.mem_cons_self m ms)))]
    · intro m2 hm2 k hk
      rcases List.mem_cons.mp hm2 with rfl | hm2t
      · by_cases hrep : ∃ m3 ∈ ms, m3.entry = m2.entry
        · obtain ⟨m3, hm3, he3⟩ := hrep
          obtain ⟨me, hmem, bp2, hbp, hmap⟩ := i2 m3 hm3 k hk
          rw [he3] at hbp
          exact ⟨me, List.mem_append_right res1 hmem, bp2, hbp, hmap⟩
        · obtain ⟨me, hmem, bp2, hbp, hmap⟩ := el1 k hk
          have hfr : getNode st2 m2.entry = getNode st1 m2.entry :=
            i1 m2.entry (fun m3 hm3 hc => hrep ⟨m3, hm3, hc⟩)
          refine ⟨me, List.mem_append_left res2 hmem, bp2, ?_, hmap⟩
          rw [hfr]
          exact hbp
      · obtain ⟨me, hmem, bp2, hbp, hmap⟩ := i2 m2 hm2t k hk
        exact ⟨me, List.mem_append_right res1 hmem, bp2, hbp, hmap⟩
    · intro m2 hm2 lo hi hk
      rcases List.mem_cons.mp hm2 with rfl | hm2t
      · by_cases hrep : ∃ m3 ∈ ms, m3.entry = m2.entry
        · obtain ⟨m3, hm3, he3⟩ := hrep
          obtain ⟨me, hmem, bp2, hbp, hmap⟩ := i3 m3 hm3 lo hi hk
          rw [he3] at hbp
          exact ⟨me, List.mem_append_right res1 hmem, bp2, hbp, hmap⟩
        · obtain ⟨me, hmem, bp2, hbp, hmap⟩ := el2 lo hi hk
          have hfr : getNode st2 m2.entry = getNode st1 m2.entry :=
            i1 m2.entry (fun m3 hm3 hc => hrep ⟨m3, hm3, hc⟩)
          refine ⟨me, List.mem_append_left res2 hmem, bp2, ?_, hmap⟩
          rw [hfr]
          exact hbp
      · obtain ⟨me, hmem, bp2, hbp, hmap⟩ := i3 m2 hm2t lo hi hk
        exact ⟨me, List.mem_append_right res1 hmem, bp2, hbp, hmap⟩

/-- C6 counterexample: a current entry whose reverse branch-point already
maps glyph 5 to child 1 is extended with the single-glyph candidate 5; the
existing child is overwritten by the fresh child 2, so the claim's
parenthetical "existing contents are preserved" is false as stated. -/
theorem C6_counterexample :
    mapGet ((getNode [⟨none, some ⟨[(5, 1)], []⟩⟩, emptyEntry] 0).reverse.getD
      emptyBP).individual 5 = some 1 ∧
    processBacktrackPosition [GlyphSpec.single 5] [⟨0, []⟩]
        [⟨none, some ⟨[(5, 1)], []⟩⟩, emptyEntry] =
      ([⟨none, some ⟨[(5, 2)], []⟩⟩, emptyEntry, emptyEntry], [⟨2, []⟩]) ∧
    mapGet [(5, 2)] 5 ≠ some 1 :=
  ⟨rfl, rfl, by decide⟩

/-- C6 (amended): backtrack (resp. lookahead) steps never change
substitution sequences; the forward (resp. reverse) branch-point of every
node is untouched; every produced meta is a fresh empty leaf at or beyond
the old arena end; each current entry's reverse (resp. forward)
branch-point is created empty only when absent and otherwise kept and
extended — the range list grows by appended pairs, the individual map is
preserved away from the position's single-glyph candidates (a candidate
colliding with an existing glyph ID overwrites that child), and every
single-glyph candidate ends up mapped to a fresh child; and each
deduplicated candidate adds one fresh leaf child tied to a returned meta:
for a single-glyph candidate the entry's final branch-point maps the glyph
to the arena index of a returned meta, for a range candidate the pair
(range, index of a returned meta) is a member of the final range list. -/
theorem C6_context_steps (glyphs : List GlyphSpec) (entries : List EntryMeta) (st : Arena)
    (hv : ∀ m ∈ entries, m.entry < st.length) :
    (((processBacktrackPosition glyphs entries st).2.map (fun me => me.substitutions) =
        entries.flatMap (fun m => (dedupGlyphs glyphs).map (fun _ => m.substitutions))) ∧
      (∀ i, (getNode (processBacktrackPosition glyphs entries st).1 i).forward =
        (getNode st i).forward) ∧
      (∀ me ∈ (processBacktrackPosition glyphs entries st).2, st.length ≤ me.entry ∧
        getNode (processBacktrackPosition glyphs entries st).1 me.entry = emptyEntry) ∧
      (∀ m ∈ entries, dedupGlyphs glyphs ≠ [] →
        RevExtended st.length (dedupGlyphs glyphs) (getNode st m.entry)
          (getNode (processBacktrackPosition glyphs entries st).1 m.entry)) ∧
      (∀ m ∈ entries, ∀ k, GlyphSpec.single k ∈ dedupGlyphs glyphs →
        ∃ me ∈ (processBacktrackPosition glyphs entries st).2, ∃ bp2,
          (getNode (processBacktrackPosition glyphs entries st).1 m.entry).reverse =
            some bp2 ∧
          mapGet bp2.individual k = some me.entry) ∧
      (∀ m ∈ entries, ∀ lo hi, GlyphSpec.range lo hi ∈ dedupGlyphs glyphs →
        ∃ me ∈ (processBacktrackPosition glyphs entries st).2, ∃ bp2,
          (getNode (processBacktrackPosition glyphs entries st).1 m.entry).reverse =
            some bp2 ∧
          ((lo, hi), me.entry) ∈ bp2.range)) ∧
    (((processLookaheadPosition glyphs entries st).2.map (fun me => me.substitutions) =
        entries.flatMap (fun m => (dedupGlyphs glyphs).map (fun _ => m.substitutions))) ∧
      (∀ i, (getNode (processLookaheadPosition glyphs entries st).1 i).reverse =
        (getNode st i).reverse) ∧
      (∀ me ∈ (processLookaheadPosition glyphs entries st).2, st.length ≤ me.entry ∧
        getNode (processLookaheadPosition glyphs entries st).1 me.entry = emptyEntry) ∧
      (∀ m ∈ entries, dedupGlyphs glyphs ≠ [] →
        FwdExtended st.length (dedupGlyphs glyphs) (getNode st m.entry)
          (getNode (processLookaheadPosition glyphs entries st).1 m.entry)) ∧
      (∀ m ∈ entries, ∀ k, GlyphSpec.single k ∈ dedupGlyphs glyphs →
        ∃ me ∈ (processLookaheadPosition glyphs entries st).2, ∃ bp2,
          (getNode (processLookaheadPosition glyphs entries st).1 m.entry).forward =
            some bp2 ∧
          mapGet bp2.individual k = some me.entry) ∧
      (∀ m ∈ entries, ∀ lo hi, GlyphSpec.range lo hi ∈ dedupGlyphs glyphs →
        ∃ me ∈ (processLookaheadPosition glyphs entries st).2, ∃ bp2,
          (getNode (processLookaheadPosition glyphs entries st).1 m.entry).forward =
            some bp2 ∧
          ((lo, hi), me.entry) ∈ bp2.range)) := by
  have hb := processBacktrackPosition_spec glyphs entries st st.length (Nat.le_refl _) hv
  have hl := processLookaheadPosition_spec glyphs entries st st.length (Nat.le_refl _) hv
  have hbl := processBacktrackPosition_links glyphs entries st hv
  have hll := processLookaheadPosition_links glyphs entries st hv
  exact ⟨⟨hb.2.1, fun i => (hb.2.2.2.2.1 i).1, hb.2.2.2.1, hb.2.2.2.2.2,
      hbl.2.1, hbl.2.2⟩,
    ⟨hl.2.1, fun i => (hl.2.2.2.2.1 i).1, hl.2.2.2.1, hl.2.2.2.2.2,
      hll.2.1, hll.2.2⟩⟩

/-- C6 witness: one backtrack step over the candidates glyph 5 and range
(8, 9) from a single root: substitutions are carried unchanged, the root's
reverse branch-point is created, glyph 5 is mapped to the arena index of a
returned meta, and the pair ((8, 9), index of a returned meta) is appended
to the range list. -/
theorem C6_context_steps_witness :
    ((processBacktrackPosition [GlyphSpec.single 5, GlyphSpec.range 8 9]
      [⟨0, [some 7]⟩] [emptyEntry]).2.map
      (fun me => me.substitutions) = [[some 7], [some 7]]) ∧
    RevExtended 1 (dedupGlyphs [GlyphSpec.single 5, GlyphSpec.range 8 9])
      (getNode [emptyEntry] 0)
      (getNode (processBacktrackPosition [GlyphSpec.single 5, GlyphSpec.range 8 9]
        [⟨0, [some 7]⟩] [emptyEntry]).1 0) ∧
    (∃ me ∈ (processBacktrackPosition [GlyphSpec.single 5, GlyphSpec.range 8 9]
        [⟨0, [some 7]⟩] [emptyEntry]).2, ∃ bp2,
      (getNode (processBacktrackPosition [GlyphSpec.single 5, GlyphSpec.range 8 9]
        [⟨0, [some 7]⟩] [emptyEntry]).1 0).reverse = some bp2 ∧
      mapGet bp2.individual 5 = some me.entry) ∧
    (∃ me ∈ (processBacktrackPosition [GlyphSpec.single 5, GlyphSpec.range 8 9]
        [⟨0, [some 7]⟩] [emptyEntry]).2, ∃ bp2,
      (getNode (processBacktrackPosition [GlyphSpec.single 5, GlyphSpec.range 8 9]
        [⟨0, [some 7]⟩] [emptyEntry]).1 0).reverse = some bp2 ∧
      ((8, 9), me.entry) ∈ bp2.range) :=
  have h := C6_context_steps [GlyphSpec.single 5, GlyphSpec.range 8 9]
    [⟨0, [some 7]⟩] [emptyEntry] (by decide)
  ⟨(h.1.1).trans (by rfl),
   h.1.2.2.2.1 ⟨0, [some 7]⟩ (List.mem_cons_self _ _) (by decide),
   h.1.2.2.2.2.1 ⟨0, [some 7]⟩ (List.mem_cons_self _ _) 5 (by decide),
   h.1.2.2.2.2.2 ⟨0, [some 7]⟩ (List.mem_cons_self _ _) 8 9 (by decide)⟩

/-! ### Lemmas about the input step -/

lemma getInputTree_fresh_empty (tree : BranchPoint) (n : Nat)
    (records : List SubstitutionLookupRecord) (lookups : List Lookup) (pos : Nat)
    (g : GlyphSpec) (t2 : BranchPoint) (fresh : List LookupTreeEntry)
    (res : List (Nat × Option Nat))
    (h : getInputTree tree n records lookups pos g = .ok (t2, fresh, res)) :
    ∀ e ∈ fresh, e = emptyEntry := by
  cases g with
  | single g1 =>
    simp only [getInputTree] at h
    cases hs : getSubstitutionAtPosition records lookups pos g1 with
    | error e =>
      rw [hs] at h
      exact Except.noConfusion
        (h : (Except.error e : Except Fault
          (BranchPoint × List LookupTreeEntry × List (Nat × Option Nat))) = _)
    | ok sub =>
      rw [hs] at h
      have h2 : (Except.ok ({ tree with individual := mapSet tree.individual g1 n },
          ([emptyEntry] : List LookupTreeEntry), [(n, sub)]) : Except Fault _) =
          .ok (t2, fresh, res) := h
      injection h2 with h3
      injection h3 with h4 h5
      injection h5 with h6 h7
      rw [← h6]
      intro e he
      simpa using he
  | range lo hi =>
    simp only [getInputTree] at h
    cases hs : getSubstitutionAtPositionRange records lookups pos (lo, hi) with
    | error e =>
      rw [hs] at h
      exact Except.noConfusion
        (h : (Except.error e : Except Fault
          (BranchPoint × List LookupTreeEntry × List (Nat × Option Nat))) = _)
    | ok subs =>
      rw [hs] at h
      have h2 : (Except.ok (inputRangeLoop tree n subs) : Except Fault _) =
        .ok (t2, fresh, res) := h
      have hfr := inputRangeLoop_fresh_empty subs tree n
      rcases hrec : inputRangeLoop tree n subs with ⟨t3, fresh3, res3⟩
      rw [hrec] at h2 hfr
      injection h2 with h3
      injection h3 with h4 h5
      injection h5 with h6 h7
      rw [← h6]
      exact hfr

lemma inputGlyphFold_fresh_empty (records : List SubstitutionLookupRecord)
    (lookups : List Lookup) (pos : Nat) (gs : List GlyphSpec) :
    ∀ (tree : BranchPoint) (n : Nat) (t2 : BranchPoint) (fresh : List LookupTreeEntry)
      (res : List (Nat × Option Nat)),
    inputGlyphFold records lookups pos tree n gs = .ok (t2, fresh, res) →
    ∀ e ∈ fresh, e = emptyEntry := by
  induction gs with
  | nil =>
    intro tree n t2 fresh res h e he
    simp only [inputGlyphFold] at h
    injection h with h
    injection h with h1 h2
    injection h2 with h3 h4
    rw [← h3] at he
    simp at he
  | cons g gs2 ih =>
    intro tree n t2 fresh res h e he
    simp only [inputGlyphFold] at h
    cases h1 : getInputTree tree n records lookups pos g with
    | error e2 =>
      rw [h1] at h
      exact Except.noConfusion
        (h : (Except.error e2 : Except Fault
          (BranchPoint × List LookupTreeEntry × List (Nat × Option Nat))) = _)
    | ok trip =>
      rcases trip with ⟨t3, fresh3, res3⟩
      rw [h1] at h
      have hcont : (do
          let x ← inputGlyphFold records lookups pos t3 (n + fresh3.length) gs2
          Except.ok (x.1, fresh3 ++ x.2.1, res3 ++ x.2.2) : Except Fault _) =
          .ok (t2, fresh, res) := h
      cases h2 : inputGlyphFold records lookups pos t3 (n + fresh3.length) gs2 with
      | error e2 =>
        rw [h2] at hcont
        exact Except.noConfusion
          (hcont : (Except.error e2 : Except Fault
            (BranchPoint × List LookupTreeEntry × List (Nat × Option Nat))) = _)
      | ok trip2 =>
        rcases trip2 with ⟨t4, fresh4, res4⟩
        rw [h2] at hcont
        have h3 : (Except.ok (t4, fresh3 ++ fresh4, res3 ++ res4) : Except Fault _) =
          .ok (t2, fresh, res) := hcont
        injection h3 with h4
        injection h4 with h5 h6
        injection h6 with h7 h8
        rw [← h7] at he
        rcases List.mem_append.mp he with he1 | he2
        · exact getInputTree_fresh_empty tree n records lookups pos g t3 fresh3 res3 h1 e he1
        · exact ih t3 (n + fresh3.length) t4 fresh4 res4 h2 e he2

lemma processInputEntry_ok_facts (st : Arena) (m : EntryMeta) (glyphs : List GlyphSpec)
    (pos : Nat) (records : List SubstitutionLookupRecord) (lookups : List Lookup)
    (st1 : Arena) (res1 : List EntryMeta)
    (h : processInputEntry st m glyphs pos records lookups = .ok (st1, res1)) :
    st.length ≤ st1.length ∧
    (∀ i, (getNode st1 i).reverse = (getNode st i).reverse) ∧
    (m.entry < st.length → (getNode st1 m.entry).forward.isSome = true) ∧
    (∀ j, j ≠ m.entry → getNode st1 j = getNode st j) ∧
    (∀ j, (getNode st j).forward.isSome = true → (getNode st1 j).forward.isSome = true) := by
  simp only [processInputEntry] at h
  cases hF : inputGlyphFold records lookups pos emptyBP st.length (dedupGlyphs glyphs) with
  | error e =>
    rw [hF] at h
    exact Except.noConfusion
      (h : (Except.error e : Except Fault (Arena × List EntryMeta)) = _)
  | ok trip =>
    rcases trip with ⟨bp, fresh, res⟩
    rw [hF] at h
    have hok : (Except.ok ((st ++ fresh).set m.entry
        { getNode st m.entry with forward := some bp },
        res.map (fun p => (⟨p.1, m.substitutions ++ [p.2]⟩ : EntryMeta))) :
        Except Fault _) = .ok (st1, res1) := h
    injection hok with h
    injection h with h1 h2
    have hfr : ∀ e ∈ fresh, e = emptyEntry :=
      inputGlyphFold_fresh_empty records lookups pos (dedupGlyphs glyphs) emptyBP st.length
        bp fresh res hF
    rw [← h1]
    have hframe : ∀ j, j ≠ m.entry →
        getNode ((st ++ fresh).set m.entry
          { getNode st m.entry with forward := some bp }) j = getNode st j := by
      intro j hj
      rw [getNode_set_ne _ _ _ _ (fun hc => hj hc.symm)]
      exact getNode_append_all st fresh hfr j
    have hself : m.entry < st.length →
        getNode ((st ++ fresh).set m.entry
          { getNode st m.entry with forward := some bp }) m.entry =
        { getNode st m.entry with forward := some bp } := by
      intro hlt
      exact getNode_set_self _ _ _ (by rw [List.length_append]; omega)
    refine ⟨?_, ?_, ?_, hframe, ?_⟩
    · rw [List.length_set, List.length_append]
      omega
    · intro i
      by_cases hi : i = m.entry
      · subst hi
        by_cases hlt : m.entry < st.length
        · rw [hself hlt]
        · rw [getNode_of_length_le st m.entry (by omega)]
          by_cases hlt2 : m.entry < (st ++ fresh).length
          · rw [getNode_set_self _ _ _ hlt2]
          · rw [getNode_of_length_le _ m.entry (by rw [List.length_set]; omega)]
      · rw [hframe i hi]
    · intro hlt
      rw [hself hlt]
      rfl
    · intro j hj
      by_cases hjm : j = m.entry
      · subst hjm
        by_cases hlt : m.entry < st.length
        · rw [hself hlt]
          rfl
        · rw [getNode_of_length_le st m.entry (by omega)] at hj
          simp [emptyEntry] at hj
      · rw [hframe j hjm]
        exact hj

lemma processInputEntry_set_fwd (st : Arena) (k : Nat) (hk : k < st.length)
    (fw : Option BranchPoint) (m : EntryMeta) (glyphs : List GlyphSpec) (pos : Nat)
    (records : List SubstitutionLookupRecord) (lookups : List Lookup) :
    processInputEntry (st.set k { getNode st k with forward := fw }) m glyphs pos
        records lookups =
      if m.entry = k then processInputEntry st m glyphs pos records lookups
      else (processInputEntry st m glyphs pos records lookups).map
        (fun x => (x.1.set k { getNode x.1 k with forward := fw }, x.2)) := by
  have hlen : (st.set k { getNode st k with forward := fw }).length = st.length :=
    List.length_set st k _
  simp only [processInputEntry, hlen]
  cases hF : inputGlyphFold records lookups pos emptyBP st.length (dedupGlyphs glyphs) with
  | error e =>
    by_cases hm : m.entry = k
    · rw [if_pos hm]
      rfl
    · rw [if_neg hm]
      rfl
  | ok trip =>
    rcases trip with ⟨bp, fresh, res⟩
    by_cases hm : m.entry = k
    · rw [if_pos hm]
      subst hm
      show (Except.ok
          (((st.set m.entry { getNode st m.entry with forward := fw }) ++ fresh).set m.entry
            { getNode (st.set m.entry { getNode st m.entry with forward := fw }) m.entry with
              forward := some bp },
           res.map (fun p => (⟨p.1, m.substitutions ++ [p.2]⟩ : EntryMeta))) :
          Except Fault _) =
        .ok ((st ++ fresh).set m.entry { getNode st m.entry with forward := some bp },
           res.map (fun p => (⟨p.1, m.substitutions ++ [p.2]⟩ : EntryMeta)))
      rw [getNode_set_self st m.entry _ hk]
      rw [show ((st.set m.entry { getNode st m.entry with forward := fw }) ++ fresh) =
          (st ++ fresh).set m.entry { getNode st m.entry with forward := fw } from by
        rw [List.set_append]
        rw [if_pos hk]]
      rw [List.set_set]
    · rw [if_neg hm]
      have hkm : k ≠ m.entry := fun hc => hm hc.symm
      show (Except.ok
          (((st.set k { getNode st k with forward := fw }) ++ fresh).set m.entry
            { getNode (st.set k { getNode st k with forward := fw }) m.entry with
              forward := some bp },
           res.map (fun p => (⟨p.1, m.substitutions ++ [p.2]⟩ : EntryMeta))) :
          Except Fault _) =
        .ok (((st ++ fresh).set m.entry
            { getNode st m.entry with forward := some bp }).set k
            { getNode ((st ++ fresh).set m.entry
                { getNode st m.entry with forward := some bp }) k with forward := fw },
           res.map (fun p => (⟨p.1, m.substitutions ++ [p.2]⟩ : EntryMeta)))
      rw [getNode_set_ne st k _ m.entry hkm]
      rw [show getNode ((st ++ fresh).set m.entry
          { getNode st m.entry with forward := some bp }) k = getNode st k from by
        rw [getNode_set_ne _ _ _ _ hm]
        exact getNode_append st fresh k hk]
      rw [show ((st.set k { getNode st k with forward := fw }) ++ fresh) =
          (st ++ fresh).set k { getNode st k with forward := fw } from by
        rw [List.set_append]
        rw [if_pos hk]]
      rw [List.set_comm _ _ (st ++ fresh) hkm]

lemma processInputPosition_set_fwd (glyphs : List GlyphSpec) (pos : Nat)
    (records : List SubstitutionLookupRecord) (lookups : List Lookup)
    (entries : List EntryMeta) :
    ∀ (st : Arena) (k : Nat), k < st.length → ∀ fw,
    processInputPosition glyphs pos entries records lookups
        (st.set k { getNode st k with forward := fw }) =
      if entries.any (fun m2 => m2.entry == k) then
        processInputPosition glyphs pos entries records lookups st
      else (processInputPosition glyphs pos entries records lookups st).map
        (fun x => (x.1.set k { getNode x.1 k with forward := fw }, x.2)) := by
  induction entries with
  | nil =>
    intro st k hk fw
    rw [List.any_nil, if_neg (by simp)]
    rfl
  | cons m ms ih =>
    intro st k hk fw
    simp only [processInputPosition]
    rw [processInputEntry_set_fwd st k hk fw m glyphs pos records lookups]
    by_cases hm : m.entry = k
    · rw [if_pos hm, if_pos (show (m :: ms).any (fun m2 => m2.entry == k) = true by
        simp [List.any_cons, hm])]
    · rw [if_neg hm]
      rw [show (m :: ms).any (fun m2 => m2.entry == k) = ms.any (fun m2 => m2.entry == k) by
        simp [List.any_cons, hm]]
      cases hE : processInputEntry st m glyphs pos records lookups with
      | error e =>
        by_cases hms : ms.any (fun m2 => m2.entry == k) = true
        · rw [if_pos hms]
          rfl
        · rw [if_neg hms]
          rfl
      | ok pair =>
        rcases pair with ⟨st1, res1⟩
        have hk1 : k < st1.length := by
          have := (processInputEntry_ok_facts st m glyphs pos records lookups st1 res1 hE).1
          omega
        show (do
            let x ← processInputPosition glyphs pos ms records lookups
              (st1.set k { getNode st1 k with forward := fw })
            Except.ok (x.1, res1 ++ x.2) : Except Fault _) =
          if (ms.any fun m2 => m2.entry == k) = true then
            (do
              let x ← processInputPosition glyphs pos ms records lookups st1
              Except.ok (x.1, res1 ++ x.2) : Except Fault _)
          else
            (do
              let x ← processInputPosition glyphs pos ms records lookups st1
              Except.ok (x.1, res1 ++ x.2) : Except Fault _).map
              (fun x => (x.1.set k { getNode x.1 k with forward := fw }, x.2))
        rw [ih st1 k hk1 fw]
        by_cases hms : ms.any (fun m2 => m2.entry == k) = true
        · rw [if_pos hms, if_pos hms]
        · rw [if_neg hms, if_neg hms]
          cases hP : processInputPosition glyphs pos ms records lookups st1 with
          | error e => rfl
          | ok pair2 => rfl

lemma processInputPosition_ok_facts (glyphs : List GlyphSpec) (pos : Nat)
    (records : List SubstitutionLookupRecord) (lookups : List Lookup)
    (entries : List EntryMeta) :
    ∀ (st st2 : Arena) (res2 : List EntryMeta),
    processInputPosition glyphs pos entries records lookups st = .ok (st2, res2) →
    st.length ≤ st2.length ∧
    (∀ i, (getNode st2 i).reverse = (getNode st i).reverse) ∧
    (∀ j, (getNode st j).forward.isSome = true → (getNode st2 j).forward.isSome = true) ∧
    (∀ m ∈ entries, m.entry < st.length → (getNode st2 m.entry).forward.isSome = true) := by
  induction entries with
  | nil =>
    intro st st2 res2 h
    have h2 : (Except.ok (st, ([] : List EntryMeta)) : Except Fault _) = .ok (st2, res2) := h
    injection h2 with h3
    injection h3 with h4 h5
    rw [← h4]
    refine ⟨Nat.le_refl _, fun i => rfl, fun j hj => hj, ?_⟩
    intro m hm
    simp at hm
  | cons m ms ih =>
    intro st st2 res2 h
    simp only [processInputPosition] at h
    cases hE : processInputEntry st m glyphs pos records lookups with
    | error e =>
      rw [hE] at h
      exact Except.noConfusion
        (h : (Except.error e : Except Fault (Arena × List EntryMeta)) = _)
    | ok pair =>
      rcases pair with ⟨st1, res1⟩
      rw [hE] at h
      have hcont : (do
          let x ← processInputPosition glyphs pos ms records lookups st1
          Except.ok (x.1, res1 ++ x.2) : Except Fault _) = .ok (st2, res2) := h
      cases hP : processInputPosition glyphs pos ms records lookups st1 with
      | error e =>
        rw [hP] at hcont
        exact Except.noConfusion
          (hcont : (Except.error e : Except Fault (Arena × List EntryMeta)) = _)
      | ok pair2 =>
        rcases pair2 with ⟨st3, res3⟩
        rw [hP] at hcont
        have h3 : (Except.ok (st3, res1 ++ res3) : Except Fault _) = .ok (st2, res2) := hcont
        injection h3 with h4
        injection h4 with h5 h6
        subst h5
        have E := processInputEntry_ok_facts st m glyphs pos records lookups st1 res1 hE
        have IH := ih st1 st3 res3 hP
        refine ⟨?_, ?_, ?_, ?_⟩
        · have := E.1
          have := IH.1
          omega
        · intro i
          rw [IH.2.1 i, E.2.1 i]
        · intro j hj
          exact IH.2.2.1 j (E.2.2.2.2 j hj)
        · intro m2 hm2 hlt
          rcases List.mem_cons.mp hm2 with rfl | hm2t
          · exact IH.2.2.1 m2.entry (E.2.2.1 hlt)
          · refine ih st1 st3 res3 hP |>.2.2.2 m2 hm2t ?_
            have := E.1
            omega

/-- C3: at every input step, each current entry's forward branch-point is
rebuilt from a fresh empty dispatch table — the call's outcome is invariant
under arbitrarily replacing the entry's prior forward branch-point — while
the reverse branch-point of every node is left unchanged, and after a
successful step every current entry carries a forward branch-point. -/
theorem C3_input_forward_reset (glyphs : List GlyphSpec) (position : Nat)
    (entries : List EntryMeta) (records : List SubstitutionLookupRecord)
    (lookups : List Lookup) (st : Arena) (m : EntryMeta) (hm : m ∈ entries)
    (hv : ∀ m2 ∈ entries, m2.entry < st.length) (fw : Option BranchPoint) :
    processInputPosition glyphs position entries records lookups
        (st.set m.entry { getNode st m.entry with forward := fw }) =
      processInputPosition glyphs position entries records lookups st ∧
    (∀ st2 res2,
      processInputPosition glyphs position entries records lookups st = .ok (st2, res2) →
      (∀ i, (getNode st2 i).reverse = (getNode st i).reverse) ∧
      (∀ m2 ∈ entries, (getNode st2 m2.entry).forward.isSome = true)) := by
  constructor
  · have h := processInputPosition_set_fwd glyphs position records lookups entries st
      m.entry (hv m hm) fw
    rw [h, if_pos (List.any_eq_true.mpr ⟨m, hm, by simp⟩)]
  · intro st2 res2 hok
    have F := processInputPosition_ok_facts glyphs position records lookups entries
      st st2 res2 hok
    exact ⟨F.2.1, fun m2 hm2 => F.2.2.2 m2 hm2 (hv m2 hm2)⟩

/-- C3 witness: a root whose forward branch-point is already populated is
reset by the input step — replacing it beforehand does not change the
outcome — and the reverse branch-point survives while the forward one is
rebuilt. -/
theorem C3_input_forward_reset_witness :
    processInputPosition [GlyphSpec.single 65] 0 [⟨0, []⟩] [] []
        ([⟨some ⟨[(9, 5)], []⟩, some ⟨[(3, 4)], []⟩⟩, emptyEntry].set 0
          { getNode [⟨some ⟨[(9, 5)], []⟩, some ⟨[(3, 4)], []⟩⟩, emptyEntry] 0 with
            forward := none }) =
      processInputPosition [GlyphSpec.single 65] 0 [⟨0, []⟩] [] []
        [⟨some ⟨[(9, 5)], []⟩, some ⟨[(3, 4)], []⟩⟩, emptyEntry] ∧
    (getNode [⟨some ⟨[(65, 2)], []⟩, some ⟨[(3, 4)], []⟩⟩, emptyEntry, emptyEntry] 0).reverse =
      (getNode [⟨some ⟨[(9, 5)], []⟩, some ⟨[(3, 4)], []⟩⟩, emptyEntry] 0).reverse ∧
    (getNode [⟨some ⟨[(65, 2)], []⟩, some ⟨[(3, 4)], []⟩⟩, emptyEntry, emptyEntry] 0).forward.isSome
      = true :=
  have h := C3_input_forward_reset [GlyphSpec.single 65] 0 [⟨0, []⟩] [] []
    [⟨some ⟨[(9, 5)], []⟩, some ⟨[(3, 4)], []⟩⟩, emptyEntry] ⟨0, []⟩
    (List.mem_cons_self _ _) (by decide) none
  have h2 := h.2 [⟨some ⟨[(65, 2)], []⟩, some ⟨[(3, 4)], []⟩⟩, emptyEntry, emptyEntry]
    [⟨2, [none]⟩] rfl
  ⟨h.1, h2.1 0, h2.2 ⟨0, []⟩ (List.mem_cons_self _ _)⟩

end ExtratermLigatures
